import Mathlib

/-!
# A hash-linked ledger with proof-of-work: embedding of `main.go`

The Go program is embedded as pure Lean functions.

* A Go `string` or `[]byte` is a list of bytes (`Bytes`).
* A Go `int` is an `Int`; the one place where the program does arithmetic on an
  `int` of unknown size (`block.Nonce++`) wraps at 64 bits (`wrapInt64`).
* `sha256.Sum256` and `hex.EncodeToString` are written out (FIPS 180-4), so every
  digest below can be computed.
* What the program takes from the standard library and cannot be computed from the
  source (the text of a `float64` under `%f` and `%v`, the RSA PKCS #1 v1.5
  primitives and their key types) is a parameter, `Lib`.
* `time.Now().String()` is an argument `now`.
* A call that can panic or loop forever returns `Except Fault`; the mining loop
  takes its number of iterations as fuel and reports `Fault.outOfFuel` when the
  fuel is used up before the loop has left.
-/

namespace GoChain

/-- A Go `string` or `[]byte`: a sequence of bytes. -/
abbrev Bytes := List UInt8

/-- The bytes of a string literal (UTF-8). -/
def str (s : String) : Bytes := s.data.flatMap String.utf8EncodeChar

/-! ## `crypto/sha256` and `encoding/hex` -/

namespace SHA256

/-- The largest `r` below `2 ^ bits` with `r ^ k ≤ n`, found bit by bit from the top,
starting from `r`. -/
def iroot (k n : Nat) : Nat → Nat → Nat
  | 0, r => r
  | bits + 1, r =>
      if (r + 2 ^ bits) ^ k ≤ n then iroot k n bits (r + 2 ^ bits) else iroot k n bits r

/-- The first 64 prime numbers. -/
def primes : List Nat := [
  2, 3, 5, 7, 11, 13, 17, 19, 23, 29, 31, 37, 41, 43, 47, 53,
  59, 61, 67, 71, 73, 79, 83, 89, 97, 101, 103, 107, 109, 113, 127, 131,
  137, 139, 149, 151, 157, 163, 167, 173, 179, 181, 191, 193, 197, 199, 211, 223,
  227, 229, 233, 239, 241, 251, 257, 263, 269, 271, 277, 281, 283, 293, 307, 311]

/-- The round constants: the first 32 bits of the fractional parts of the cube roots of
the first 64 primes. -/
def K : List Nat := primes.map (fun p => iroot 3 (p <<< 96) 36 0 % 2 ^ 32)

/-- The initial hash value: the first 32 bits of the fractional parts of the square roots
of the first 8 primes. -/
def H0 : List Nat := (primes.take 8).map (fun p => iroot 2 (p <<< 64) 36 0 % 2 ^ 32)

/-- A 32-bit word is a natural number below `2 ^ 32`. -/
def w32 (x : Nat) : Nat := x % 2 ^ 32

def rotr (x n : Nat) : Nat := (x >>> n) ||| w32 (x <<< (32 - n))

def bnot (x : Nat) : Nat := 2 ^ 32 - 1 - x

def ch (x y z : Nat) : Nat := (x &&& y) ^^^ (bnot x &&& z)

def maj (x y z : Nat) : Nat := (x &&& y) ^^^ (x &&& z) ^^^ (y &&& z)

def bsig0 (x : Nat) : Nat := rotr x 2 ^^^ rotr x 13 ^^^ rotr x 22

def bsig1 (x : Nat) : Nat := rotr x 6 ^^^ rotr x 11 ^^^ rotr x 25

def ssig0 (x : Nat) : Nat := rotr x 7 ^^^ rotr x 18 ^^^ (x >>> 3)

def ssig1 (x : Nat) : Nat := rotr x 17 ^^^ rotr x 19 ^^^ (x >>> 10)

/-- The padded message: `0x80`, zero bytes up to 56 modulo 64, the bit length in
eight bytes, most significant first. -/
def pad (msg : Bytes) : Bytes :=
  let n := msg.length
  let z := (55 + 64 - n % 64) % 64
  let bits := 8 * n
  msg ++ [(0x80 : UInt8)] ++ List.replicate z (0 : UInt8) ++
    (List.range 8).map (fun i => UInt8.ofNat ((bits >>> (8 * (7 - i))) % 256))

/-- Big-endian 32-bit words of a byte sequence. -/
def words : Bytes → List Nat
  | a :: b :: c :: d :: rest =>
      (a.toNat <<< 24 ||| b.toNat <<< 16 ||| c.toNat <<< 8 ||| d.toNat) :: words rest
  | _ => []

/-- The message schedule, newest word first: `n` more words are put before `w`. -/
def extend : Nat → List Nat → List Nat
  | 0, w => w
  | n + 1, w =>
      extend n (w32 (ssig1 (w.getD 1 0) + w.getD 6 0 + ssig0 (w.getD 14 0) + w.getD 15 0) :: w)

/-- One round on the working variables `a … h` with round constant and schedule word. -/
def round (s : List Nat) (kw : Nat × Nat) : List Nat :=
  match s with
  | [a, b, c, d, e, f, g, h] =>
      let t1 := h + bsig1 e + ch e f g + kw.1 + kw.2
      let t2 := bsig0 a + maj a b c
      [w32 (t1 + t2), a, b, c, w32 (d + t1), e, f, g]
  | _ => s

/-- The compression function on one block of sixteen words. -/
def compress (h : List Nat) (block : List Nat) : List Nat :=
  let w := (extend 48 block.reverse).reverse
  let s := (K.zip w).foldl round h
  List.zipWith (fun x y => w32 (x + y)) h s

/-- The first `n` blocks of sixteen words. -/
def blocks : Nat → List Nat → List (List Nat)
  | 0, _ => []
  | n + 1, ws => ws.take 16 :: blocks n (ws.drop 16)

def wordBytes (x : Nat) : Bytes :=
  [UInt8.ofNat (x >>> 24 % 256), UInt8.ofNat (x >>> 16 % 256), UInt8.ofNat (x >>> 8 % 256),
    UInt8.ofNat (x % 256)]

/-- The digest `sha256.Sum256` returns: 32 bytes. -/
def Sum256 (msg : Bytes) : Bytes :=
  let p := pad msg
  ((blocks (p.length / 64) (words p)).foldl compress H0).flatMap wordBytes

end SHA256

/-- A lower-case hexadecimal digit. -/
def hexDigit (n : Nat) : UInt8 := UInt8.ofNat (if n < 10 then 48 + n else 87 + n)

/-- The text `hex.EncodeToString` returns: two digits for every byte. -/
def hexEncodeToString (bs : Bytes) : Bytes :=
  bs.flatMap (fun b => [hexDigit (b.toNat / 16), hexDigit (b.toNat % 16)])

/-! ## `fmt`, `strings` -/

/-- The verb `%d` on a natural number: its decimal digits. -/
def fmtNat (n : Nat) : Bytes := (Nat.toDigits 10 n).map (fun c => UInt8.ofNat c.toNat)

/-- The verb `%d` on an `int`. -/
def fmtInt (d : Int) : Bytes :=
  if d < 0 then str "-" ++ fmtNat d.natAbs else fmtNat d.natAbs

/-- The verb `%v` on a `[]byte`: the bytes in decimal, a blank between two, in brackets. -/
def fmtByteSlice (bs : Bytes) : Bytes :=
  str "[" ++ (str " ").intercalate (bs.map (fun b => fmtNat b.toNat)) ++ str "]"

/-- What `strings.HasPrefix` returns. -/
def stringsHasPrefix (s pre : Bytes) : Bool := pre.isPrefixOf s

/-- What `strings.Repeat` returns; `none` is its panic on a negative count. -/
def stringsRepeat (s : Bytes) (count : Int) : Option Bytes :=
  if count < 0 then none else some (List.replicate count.toNat s).flatten

/-- What `++` does to an `int` of 64 bits: it wraps. -/
def wrapInt64 (x : Int) : Int := (x + 2 ^ 63) % 2 ^ 64 - 2 ^ 63

/-! ## The data of the program -/

/-- A `float64`, given by its 64 bits. The program never computes with one; it only
has it printed. -/
structure Float64 where
  bits : Nat
deriving DecidableEq

structure Transaction where
  Sender : Bytes
  Receiver : Bytes
  Amount : Float64
  Signature : Bytes
deriving DecidableEq

structure Block where
  Index : Int
  Timestamp : Bytes
  Transactions : List Transaction
  PrevHash : Bytes
  Hash : Bytes
  Nonce : Int
deriving DecidableEq

structure Blockchain where
  Blocks : List Block
  Difficulty : Int
deriving DecidableEq

/-- How a call can fail to return: a run-time panic, or the fuel of a loop used up. -/
inductive Fault where
  | panic
  | outOfFuel
deriving DecidableEq

/-- What the program uses of the standard library and the source does not determine.
`SignPKCS1v15 rand priv hashed` and `VerifyPKCS1v15 pub hashed sig` are the functions of
`crypto/rsa` at `crypto.SHA256`; `rand` is what `rand.Reader` yields; the error of
`VerifyPKCS1v15` is `none` for `nil`. -/
structure Lib where
  PrivateKey : Type
  PublicKey : Type
  Error : Type
  fmtFloatF : Float64 → Bytes
  fmtFloatV : Float64 → Bytes
  SignPKCS1v15 : Bytes → PrivateKey → Bytes → Except Error Bytes
  VerifyPKCS1v15 : PublicKey → Bytes → Bytes → Option Error

/-! ## Transactions -/

/-- The text both `SignTransaction` and `ValidateTransaction` digest:
`fmt.Sprintf("%s%s%f", tx.Sender, tx.Receiver, tx.Amount)`. -/
def txSerialize (L : Lib) (tx : Transaction) : Bytes :=
  tx.Sender ++ tx.Receiver ++ L.fmtFloatF tx.Amount

def SignTransaction (L : Lib) (rand : Bytes) (tx : Transaction) (privateKey : L.PrivateKey) :
    Except L.Error Bytes :=
  let hash := SHA256.Sum256 (txSerialize L tx)
  match L.SignPKCS1v15 rand privateKey hash with
  | .error err => .error err
  | .ok signature => .ok signature

def NewTransaction (L : Lib) (rand : Bytes) (sender receiver : Bytes) (amount : Float64)
    (privateKey : L.PrivateKey) : Except L.Error Transaction :=
  let tx : Transaction :=
    { Sender := sender, Receiver := receiver, Amount := amount, Signature := [] }
  match SignTransaction L rand tx privateKey with
  | .error err => .error err
  | .ok signature => .ok { tx with Signature := signature }

def ValidateTransaction (L : Lib) (tx : Transaction) (publicKey : L.PublicKey) : Bool :=
  let hash := SHA256.Sum256 (txSerialize L tx)
  let err := L.VerifyPKCS1v15 publicKey hash tx.Signature
  err.isNone

/-! ## Blocks -/

/-- The verb `%v` on a `Transaction`: its fields, a blank between two, in braces. -/
def fmtTransaction (L : Lib) (tx : Transaction) : Bytes :=
  str "\x7b" ++ tx.Sender ++ str " " ++ tx.Receiver ++ str " " ++ L.fmtFloatV tx.Amount ++
    str " " ++ fmtByteSlice tx.Signature ++ str "\x7d"

/-- The verb `%v` on a `[]Transaction`. -/
def fmtTransactions (L : Lib) (txs : List Transaction) : Bytes :=
  str "[" ++ (str " ").intercalate (txs.map (fmtTransaction L)) ++ str "]"

/-- The text `CalculateHash` digests:
`fmt.Sprintf("%d%s%v%s%d", Index, Timestamp, Transactions, PrevHash, Nonce)`. -/
def blockSerialize (L : Lib) (block : Block) : Bytes :=
  fmtInt block.Index ++ block.Timestamp ++ fmtTransactions L block.Transactions ++
    block.PrevHash ++ fmtInt block.Nonce

def CalculateHash (L : Lib) (block : Block) : Bytes :=
  let data := blockSerialize L block
  let hash := SHA256.Sum256 data
  hexEncodeToString hash

/-- The loop of `MineBlock`, at most `fuel` iterations of it: the hash it leaves with
and the block as the loop left it (only `Nonce` is written). -/
def mineLoop (L : Lib) (target : Bytes) : Nat → Block → Except Fault (Bytes × Block)
  | 0, _ => .error .outOfFuel
  | fuel + 1, block =>
      let hash := CalculateHash L block
      if stringsHasPrefix hash target then .ok (hash, block)
      else mineLoop L target fuel { block with Nonce := wrapInt64 (block.Nonce + 1) }

/-- `MineBlock` on `*block`: the hash returned and the block as it is afterwards. -/
def Blockchain.MineBlock (L : Lib) (bc : Blockchain) (fuel : Nat) (block : Block) :
    Except Fault (Bytes × Block) :=
  match stringsRepeat (str "0") bc.Difficulty with
  | none => .error .panic
  | some target => mineLoop L target fuel block

def Blockchain.NewBlock (L : Lib) (bc : Blockchain) (fuel : Nat) (now : Bytes)
    (transactions : List Transaction) (prevHash : Bytes) : Except Fault Block :=
  let block : Block :=
    { Index := (bc.Blocks.length : Int), Timestamp := now, Transactions := transactions,
      PrevHash := prevHash, Hash := [], Nonce := 0 }
  match bc.MineBlock L fuel block with
  | .error e => .error e
  | .ok (hash, block) => .ok { block with Hash := hash }

def NewBlockchain (L : Lib) (now : Bytes) : Blockchain :=
  let genesisBlock : Block :=
    { Index := 0, Timestamp := now, Transactions := [], PrevHash := str "0", Hash := [],
      Nonce := 0 }
  let genesisBlock := { genesisBlock with Hash := CalculateHash L genesisBlock }
  { Blocks := [genesisBlock], Difficulty := 4 }

def Blockchain.ValidateBlock (L : Lib) (_bc : Blockchain) (block prevBlock : Block) : Bool :=
  if block.PrevHash ≠ prevBlock.Hash then false
  else if block.Hash ≠ CalculateHash L block then false
  else true

/-- `AddBlock`; `Fault.panic` is the index out of range of `bc.Blocks[len(bc.Blocks)-1]`
on a ledger without a block. -/
def Blockchain.AddBlock (L : Lib) (bc : Blockchain) (block : Block) : Except Fault Blockchain :=
  match bc.Blocks[bc.Blocks.length - 1]? with
  | none => .error .panic
  | some tip =>
      if bc.ValidateBlock L block tip then .ok { bc with Blocks := bc.Blocks ++ [block] }
      else .ok bc

/-- The loop of `IsChainValid` from index `i` on, at most `fuel` iterations of it. -/
def Blockchain.isChainValidLoop (L : Lib) (bc : Blockchain) : Nat → Nat → Bool
  | 0, _ => true
  | fuel + 1, i =>
      if h : i < bc.Blocks.length then
        let currentBlock := bc.Blocks[i]
        let prevBlock := bc.Blocks[i - 1]
        if !bc.ValidateBlock L currentBlock prevBlock then false
        else bc.isChainValidLoop L fuel (i + 1)
      else true

/-- `IsChainValid`: the loop from index 1; it leaves within `len(bc.Blocks)` iterations. -/
def Blockchain.IsChainValid (L : Lib) (bc : Blockchain) : Bool :=
  bc.isChainValidLoop L bc.Blocks.length 1

/-- The ledger after `NewBlockchain()` and one `AddBlock` call for each block of `blocks`,
in order. -/
def addBlocks (L : Lib) (bc : Blockchain) : List Block → Except Fault Blockchain
  | [] => .ok bc
  | block :: rest =>
      match bc.AddBlock L block with
      | .error e => .error e
      | .ok bc => addBlocks L bc rest

/-- The nonce after `k` executions of `block.Nonce++`, from `n`. -/
def nonceAfter (n : Int) : Nat → Int
  | 0 => n
  | k + 1 => nonceAfter (wrapInt64 (n + 1)) k

/-! ## Concrete data, for evaluating the definitions -/

/-- A value of `time.Now().String()`. -/
def now0 : Bytes := str "2024-05-01 12:00:00.000000001 +0000 UTC m=+0.000010001"

/-- A later value of `time.Now().String()`. -/
def now1 : Bytes := str "2024-05-01 12:00:12.000000001 +0000 UTC m=+12.000010001"

/-- The genesis block `NewBlockchain()` builds at `now0`. -/
def genesis0 : Block :=
  { Index := 0, Timestamp := now0, Transactions := [], PrevHash := str "0",
    Hash := str "c6ae84c0434aaeefcaf76f5a42bf53afbee88e7cae1afc33be7901fa01b0eac1", Nonce := 0 }

/-- The ledger `NewBlockchain()` returns at `now0`. -/
def ledger0 : Blockchain := { Blocks := [genesis0], Difficulty := 4 }

/-- The block a ledger of difficulty 1 that holds `genesis0` mines at `now1` with no
transaction, on top of `genesis0`: the search leaves at nonce 4. -/
def mined1 : Block :=
  { Index := 1, Timestamp := now1, Transactions := [], PrevHash := genesis0.Hash,
    Hash := str "0a8ddd12a0292e39b8ff1c13d9e147f3781c18a40489a00dd0693863a98d4536", Nonce := 4 }

/-- A block on top of `genesis0` that carries its own digest and was not mined: its hash
begins with `2`. -/
def unmined1 : Block :=
  { Index := 1, Timestamp := now1, Transactions := [], PrevHash := genesis0.Hash,
    Hash := str "243795e95ed42617cd2818da53ec32286464c2242c3d465f1a7b17453b8dfe68", Nonce := 0 }

/-- The number a byte sequence stands for, most significant byte first. -/
def os2ip (bs : Bytes) : Nat := bs.foldl (fun acc b => acc * 256 + b.toNat) 0

/-- A public key of the small RSA of `demoLib`: modulus and public exponent. -/
structure DemoPublicKey where
  N : Nat
  E : Nat
deriving DecidableEq

/-- A private key of the small RSA of `demoLib`: it holds its public key, as an
`rsa.PrivateKey` does, and the private exponent. -/
structure DemoPrivateKey where
  PublicKey : DemoPublicKey
  D : Nat
deriving DecidableEq

/-- An instance of `Lib` small enough to evaluate, to show that what the theorems on
transactions assume of a library can be met. It is not the Go library: signing is RSA
without padding on the digest reduced modulo `N`, checked against the public exponent
before it is returned and written in two bytes; a float is printed as the decimal number
of its bits. -/
def demoLib : Lib where
  PrivateKey := DemoPrivateKey
  PublicKey := DemoPublicKey
  Error := Unit
  fmtFloatF := fun x => fmtNat x.bits
  fmtFloatV := fun x => fmtNat x.bits
  SignPKCS1v15 := fun _ priv hashed =>
    let m := os2ip hashed % priv.PublicKey.N
    let s := m ^ priv.D % priv.PublicKey.N
    if s ^ priv.PublicKey.E % priv.PublicKey.N = m then
      .ok [UInt8.ofNat (s / 256), UInt8.ofNat (s % 256)]
    else .error ()
  VerifyPKCS1v15 := fun pub hashed sig =>
    if sig.length = 2 ∧ os2ip sig ^ pub.E % pub.N = os2ip hashed % pub.N then none else some ()

/-- A private key of `demoLib`: `3233 = 61 * 53`, `17 * 2753 = 1 mod 780`. -/
def demoPriv : DemoPrivateKey := { PublicKey := { N := 3233, E := 17 }, D := 2753 }

/-- What `Verify` must do on what `Sign` returns for `pub` to be the public key that
goes with `priv`: every signature `priv` makes of a digest, `pub` accepts for it. -/
def Matched (L : Lib) (priv : L.PrivateKey) (pub : L.PublicKey) : Prop :=
  ∀ rand hashed sig, L.SignPKCS1v15 rand priv hashed = .ok sig →
    L.VerifyPKCS1v15 pub hashed sig = none

/-- The candidate `NewBlock` hands to `MineBlock` at `now1`, with no transaction, on top of
`genesis0`. -/
def candidate1 : Block :=
  { Index := 1, Timestamp := now1, Transactions := [], PrevHash := genesis0.Hash, Hash := [],
    Nonce := 0 }

/-- The transaction `NewTransaction("Natasha", "Ashot", 100, demoPriv)` returns with
`demoLib`. -/
def txDemo : Transaction :=
  { Sender := str "Natasha", Receiver := str "Ashot", Amount := ⟨0x4059000000000000⟩,
    Signature := [5, 63] }

/-- Two blocks that differ in `Index` and `Timestamp` and print the same: `1` then `2x`,
`12` then `x`. -/
def collideA : Block :=
  { Index := 1, Timestamp := str "2x", Transactions := [], PrevHash := genesis0.Hash, Hash := [],
    Nonce := 0 }

/-- The second of the two: `Index` 12, `Timestamp` `x`. -/
def collideB : Block :=
  { Index := 12, Timestamp := str "x", Transactions := [], PrevHash := genesis0.Hash, Hash := [],
    Nonce := 0 }

/-- A block on top of `genesis0` that carries its own digest and has `Index` 7. -/
def offIndex1 : Block :=
  { Index := 7, Timestamp := now1, Transactions := [], PrevHash := genesis0.Hash,
    Hash := str "d146ecdcb7f89a37aa136f5246d8b1eac183fc15a6158add7576ca7945d657c3", Nonce := 0 }

/-- What `main` does for one block: `NewBlock` on the hash of the last block, then
`AddBlock` of the block returned. -/
def mineAndAdd (L : Lib) (bc : Blockchain) (fuel : Nat) (now : Bytes)
    (transactions : List Transaction) : Except Fault Blockchain :=
  match bc.Blocks[bc.Blocks.length - 1]? with
  | none => .error .panic
  | some tip =>
      match bc.NewBlock L fuel now transactions tip.Hash with
      | .error e => .error e
      | .ok block => bc.AddBlock L block

/-- One `mineAndAdd` after the other, each with its fuel, its time and its transactions. -/
def mineAndAddAll (L : Lib) (bc : Blockchain) :
    List (Nat × Bytes × List Transaction) → Except Fault Blockchain
  | [] => .ok bc
  | (fuel, now, transactions) :: rest =>
      match mineAndAdd L bc fuel now transactions with
      | .error e => .error e
      | .ok bc => mineAndAddAll L bc rest

/-- A call of one of the two methods that take a block to or from the ledger. -/
inductive Call where
  | addBlock (block : Block)
  | newBlock (fuel : Nat) (now : Bytes) (transactions : List Transaction) (prevHash : Bytes)

/-- The ledger after a sequence of calls; a call of `NewBlock` that returns leaves the
ledger as it was. -/
def runCalls (L : Lib) (bc : Blockchain) : List Call → Except Fault Blockchain
  | [] => .ok bc
  | .addBlock block :: rest =>
      match bc.AddBlock L block with
      | .error e => .error e
      | .ok bc => runCalls L bc rest
  | .newBlock fuel now transactions prevHash :: rest =>
      match bc.NewBlock L fuel now transactions prevHash with
      | .error e => .error e
      | .ok _ => runCalls L bc rest

/-- The transaction `NewTransaction("ab", "c", 100, demoPriv)` returns with `demoLib`. -/
def txShiftA : Transaction :=
  { Sender := str "ab", Receiver := str "c", Amount := ⟨0x4059000000000000⟩,
    Signature := [3, 194] }

/-- The transaction `txShiftA` with sender `a` and receiver `bc`, the signature kept. -/
def txShiftB : Transaction :=
  { Sender := str "a", Receiver := str "bc", Amount := ⟨0x4059000000000000⟩,
    Signature := [3, 194] }

/-- The transaction `txDemo` with another signature. -/
def txDemoWrongSig : Transaction := { txDemo with Signature := [5, 64] }

/-- The transaction `txDemo` with the receiver `Boris`, the signature kept. -/
def txDemoBoris : Transaction := { txDemo with Receiver := str "Boris" }

/-! ## Facts about the embedding -/

theorem str_zero : str "0" = [48] := by decide

theorem CalculateHash_setHash (L : Lib) (b : Block) (h : Bytes) :
    CalculateHash L { b with Hash := h } = CalculateHash L b := rfl

theorem ValidateBlock_eq_true (L : Lib) (bc : Blockchain) (block prevBlock : Block) :
    bc.ValidateBlock L block prevBlock = true ↔
      block.PrevHash = prevBlock.Hash ∧ block.Hash = CalculateHash L block := by
  unfold Blockchain.ValidateBlock
  by_cases h1 : block.PrevHash = prevBlock.Hash <;>
    by_cases h2 : block.Hash = CalculateHash L block <;> simp [h1, h2]

theorem isChainValidLoop_eq_true (L : Lib) (bc : Blockchain) (fuel : Nat) :
    ∀ i, 1 ≤ i →
      (bc.isChainValidLoop L fuel i = true ↔
        ∀ j cur prev, i ≤ j → j < i + fuel → bc.Blocks[j]? = some cur →
          bc.Blocks[j - 1]? = some prev → bc.ValidateBlock L cur prev = true) := by
  induction fuel with
  | zero =>
      intro i _
      simp only [Blockchain.isChainValidLoop, true_iff]
      intro j cur prev h1 h2
      omega
  | succ n ih =>
      intro i hi
      unfold Blockchain.isChainValidLoop
      by_cases hlt : i < bc.Blocks.length
      · have hlt1 : i - 1 < bc.Blocks.length := by omega
        simp only [hlt, dite_true]
        by_cases hv : bc.ValidateBlock L bc.Blocks[i] bc.Blocks[i - 1] = true
        · simp only [hv, Bool.not_true, Bool.false_eq_true, if_false]
          rw [ih (i + 1) (by omega)]
          constructor
          · intro h j cur prev h1 h2 hc hp
            by_cases hji : j = i
            · subst hji
              rw [List.getElem?_eq_getElem hlt] at hc
              rw [List.getElem?_eq_getElem hlt1] at hp
              cases hc; cases hp; exact hv
            · exact h j cur prev (by omega) (by omega) hc hp
          · intro h j cur prev h1 h2 hc hp
            exact h j cur prev (by omega) (by omega) hc hp
        · have hv2 : bc.ValidateBlock L bc.Blocks[i] bc.Blocks[i - 1] = false := by
            simpa using hv
          simp only [hv2, Bool.not_false, if_true, Bool.false_eq_true, false_iff]
          intro h
          exact hv (h i _ _ (le_refl i) (by omega) (List.getElem?_eq_getElem hlt)
            (List.getElem?_eq_getElem hlt1))
      · simp only [hlt, dite_false, true_iff]
        intro j cur prev h1 _ hc _
        have := (List.getElem?_eq_some.mp hc).1
        omega

/-- C1. `ValidateBlock(block, prevBlock)` is a total boolean function of the two blocks (it
cannot fail), and it returns true exactly when `block.PrevHash` equals `prevBlock.Hash` and
`block.Hash` equals `CalculateHash(block)` recomputed from the fields of `block`; otherwise
it returns false. -/
theorem ValidateBlock_iff (L : Lib) (bc : Blockchain) (block prevBlock : Block) :
    (bc.ValidateBlock L block prevBlock = true ↔
      block.PrevHash = prevBlock.Hash ∧ block.Hash = CalculateHash L block) ∧
    (bc.ValidateBlock L block prevBlock = false ↔
      ¬ (block.PrevHash = prevBlock.Hash ∧ block.Hash = CalculateHash L block)) := by
  refine ⟨ValidateBlock_eq_true L bc block prevBlock, ?_⟩
  rw [← ValidateBlock_eq_true L bc block prevBlock]
  simp

theorem IsChainValid_eq_true (L : Lib) (bc : Blockchain) :
    bc.IsChainValid L = true ↔
      ∀ i cur prev, 1 ≤ i → bc.Blocks[i]? = some cur → bc.Blocks[i - 1]? = some prev →
        bc.ValidateBlock L cur prev = true := by
  unfold Blockchain.IsChainValid
  rw [isChainValidLoop_eq_true L bc bc.Blocks.length 1 (le_refl 1)]
  constructor
  · intro h i cur prev h1 hc hp
    have := (List.getElem?_eq_some.mp hc).1
    exact h i cur prev h1 (by omega) hc hp
  · intro h j cur prev h1 _ hc hp
    exact h j cur prev h1 hc hp

/-- The first block is read only for its `Hash`. -/
theorem IsChainValid_first (L : Lib) (bc : Blockchain) (g g' : Block) (rest : List Block)
    (hb : bc.Blocks = g :: rest) (hh : g'.Hash = g.Hash) :
    Blockchain.IsChainValid L { bc with Blocks := g' :: rest } = bc.IsChainValid L := by
  rw [Bool.eq_iff_iff, IsChainValid_eq_true, IsChainValid_eq_true L bc, hb]
  have step : ∀ (x y : Block), x.Hash = y.Hash →
      (∀ i cur prev, 1 ≤ i → (x :: rest)[i]? = some cur → (x :: rest)[i - 1]? = some prev →
        bc.ValidateBlock L cur prev = true) →
      ∀ i cur prev, 1 ≤ i → (y :: rest)[i]? = some cur → (y :: rest)[i - 1]? = some prev →
        bc.ValidateBlock L cur prev = true := by
    intro x y hxy h i cur prev h1 hc hp
    obtain ⟨k, rfl⟩ : ∃ k, i = k + 1 := ⟨i - 1, by omega⟩
    simp only [List.getElem?_cons_succ, Nat.add_sub_cancel] at hc hp
    cases k with
    | zero =>
        simp only [List.getElem?_cons_zero, Option.some.injEq] at hp
        subst hp
        have := h 1 cur x (le_refl 1) (by simpa using hc) (by simp)
        rw [ValidateBlock_eq_true] at this ⊢
        exact ⟨this.1.trans hxy, this.2⟩
    | succ k =>
        exact h (k + 2) cur prev (by omega) (by simpa using hc) (by simpa using hp)
  exact ⟨step g' g hh, step g g' hh.symm⟩

/-- C2. `IsChainValid()` returns true exactly when `ValidateBlock(Blocks[i], Blocks[i-1])`
holds at every index `i` with `1 ≤ i < len(Blocks)`. The genesis block is never validated
itself: a ledger of zero or one block is valid, and the result does not change when the
first block is replaced by any block with the same `Hash`. -/
theorem IsChainValid_iff (L : Lib) (bc : Blockchain) :
    (bc.IsChainValid L = true ↔
      ∀ i cur prev, 1 ≤ i → bc.Blocks[i]? = some cur → bc.Blocks[i - 1]? = some prev →
        bc.ValidateBlock L cur prev = true) ∧
    (bc.Blocks.length ≤ 1 → bc.IsChainValid L = true) ∧
    (∀ g g' rest, bc.Blocks = g :: rest → g'.Hash = g.Hash →
      Blockchain.IsChainValid L { bc with Blocks := g' :: rest } = bc.IsChainValid L) := by
  refine ⟨IsChainValid_eq_true L bc, ?_, fun g g' rest => IsChainValid_first L bc g g' rest⟩
  intro hlen
  rw [IsChainValid_eq_true L bc]
  intro i cur prev h1 hc _
  have := (List.getElem?_eq_some.mp hc).1
  omega

theorem tip_eq_getLast? (l : List Block) : l[l.length - 1]? = l.getLast? := by
  rw [List.getLast?_eq_getElem?]

theorem AddBlock_eq (L : Lib) (bc : Blockchain) (b tip : Block)
    (htip : bc.Blocks.getLast? = some tip) :
    bc.AddBlock L b =
      if bc.ValidateBlock L b tip then .ok { bc with Blocks := bc.Blocks ++ [b] } else .ok bc := by
  unfold Blockchain.AddBlock
  rw [tip_eq_getLast?, htip]

/-- C3. On a ledger whose last block is `tip`, `AddBlock(b)` returns, and it appends `b`
exactly when `ValidateBlock(b, tip)` is true. When it is true the block sequence afterwards
is the old one followed by `b`: one longer, every earlier entry where it was. When it is
false, and so whenever `b.PrevHash` differs from `tip.Hash`, the ledger is left as it was.
`Difficulty` is the same afterwards in both cases. -/
theorem AddBlock_spec (bc : Blockchain) (b tip : Block)
    (htip : bc.Blocks.getLast? = some tip) (L : Lib) :
    ∃ bc', bc.AddBlock L b = .ok bc' ∧ bc'.Difficulty = bc.Difficulty ∧
      (bc'.Blocks = bc.Blocks ++ [b] ↔ bc.ValidateBlock L b tip = true) ∧
      (bc.ValidateBlock L b tip = true →
        bc'.Blocks = bc.Blocks ++ [b] ∧ bc'.Blocks.length = bc.Blocks.length + 1 ∧
          ∀ i, i < bc.Blocks.length → bc'.Blocks[i]? = bc.Blocks[i]?) ∧
      (bc.ValidateBlock L b tip = false → bc' = bc) ∧
      (b.PrevHash ≠ tip.Hash → bc' = bc) := by
  rw [AddBlock_eq L bc b tip htip]
  by_cases hv : bc.ValidateBlock L b tip = true
  · refine ⟨{ bc with Blocks := bc.Blocks ++ [b] }, by simp [hv], rfl, by simp [hv], ?_, ?_, ?_⟩
    · intro _
      refine ⟨rfl, by simp, ?_⟩
      intro i hi
      simp [List.getElem?_append_left hi]
    · intro hf
      rw [hf] at hv
      cases hv
    · intro hne
      exact absurd ((ValidateBlock_eq_true L bc b tip).mp hv).1 hne
  · have hf : bc.ValidateBlock L b tip = false := by simpa using hv
    refine ⟨bc, by simp [hf], rfl, by simp [hf], ?_, ?_, ?_⟩
    · intro ht
      exact absurd ht hv
    · intro _
      rfl
    · intro _
      rfl
/-- The two facts a ledger built by the program keeps: every block carries its own digest,
and every block after the first names the hash of the block before it. -/
theorem AddBlock_keeps (L : Lib) (bc : Blockchain) (b : Block) (hne : bc.Blocks ≠ [])
    (hh : ∀ x ∈ bc.Blocks, x.Hash = CalculateHash L x)
    (hl : ∀ i cur prev, 1 ≤ i → bc.Blocks[i]? = some cur → bc.Blocks[i - 1]? = some prev →
      cur.PrevHash = prev.Hash) :
    ∃ bc', bc.AddBlock L b = .ok bc' ∧ bc'.Blocks ≠ [] ∧ bc'.Difficulty = bc.Difficulty ∧
      bc.Blocks <+: bc'.Blocks ∧
      (∀ x ∈ bc'.Blocks, x.Hash = CalculateHash L x) ∧
      (∀ i cur prev, 1 ≤ i → bc'.Blocks[i]? = some cur → bc'.Blocks[i - 1]? = some prev →
        cur.PrevHash = prev.Hash) := by
  obtain ⟨tip, htip⟩ : ∃ tip, bc.Blocks.getLast? = some tip := by
    cases hb : bc.Blocks.getLast? with
    | none => exact absurd (List.getLast?_eq_none_iff.mp hb) hne
    | some t => exact ⟨t, rfl⟩
  rw [AddBlock_eq L bc b tip htip]
  by_cases hv : bc.ValidateBlock L b tip = true
  · have hv' := (ValidateBlock_eq_true L bc b tip).mp hv
    refine ⟨{ bc with Blocks := bc.Blocks ++ [b] }, by simp [hv], by simp, rfl,
      List.prefix_append _ _, ?_, ?_⟩
    · intro x hx
      rcases List.mem_append.mp hx with h | h
      · exact hh x h
      · rw [List.mem_singleton.mp h]
        exact hv'.2
    · intro i cur prev h1 hc hp
      have hlen : 0 < bc.Blocks.length := List.length_pos.mpr hne
      simp only at hc hp
      rcases Nat.lt_trichotomy i bc.Blocks.length with hi | hi | hi
      · rw [List.getElem?_append_left hi] at hc
        rw [List.getElem?_append_left (by omega)] at hp
        exact hl i cur prev h1 hc hp
      · rw [List.getElem?_append_right (by omega)] at hc
        rw [List.getElem?_append_left (by omega)] at hp
        have hc' : cur = b := by
          have : i - bc.Blocks.length = 0 := by omega
          rw [this] at hc
          simpa using hc.symm
        have hp' : prev = tip := by
          rw [hi, tip_eq_getLast?, htip] at hp
          simpa using hp.symm
        rw [hc', hp']
        exact hv'.1
      · have := (List.getElem?_eq_some.mp hc).1
        simp at this
        omega
  · have hf : bc.ValidateBlock L b tip = false := by simpa using hv
    exact ⟨bc, by simp [hf], hne, rfl, List.prefix_refl _, hh, hl⟩

theorem addBlocks_keeps (L : Lib) (blocks : List Block) :
    ∀ bc : Blockchain, bc.Blocks ≠ [] →
      (∀ x ∈ bc.Blocks, x.Hash = CalculateHash L x) →
      (∀ i cur prev, 1 ≤ i → bc.Blocks[i]? = some cur → bc.Blocks[i - 1]? = some prev →
        cur.PrevHash = prev.Hash) →
      ∃ bc', addBlocks L bc blocks = .ok bc' ∧ bc'.Blocks ≠ [] ∧
        bc'.Difficulty = bc.Difficulty ∧ bc.Blocks <+: bc'.Blocks ∧
        (∀ x ∈ bc'.Blocks, x.Hash = CalculateHash L x) ∧
        (∀ i cur prev, 1 ≤ i → bc'.Blocks[i]? = some cur → bc'.Blocks[i - 1]? = some prev →
          cur.PrevHash = prev.Hash) := by
  induction blocks with
  | nil =>
      intro bc hne hh hl
      exact ⟨bc, rfl, hne, rfl, List.prefix_refl _, hh, hl⟩
  | cons b rest ih =>
      intro bc hne hh hl
      obtain ⟨bc1, h1, hne1, hd1, hp1, hh1, hl1⟩ := AddBlock_keeps L bc b hne hh hl
      obtain ⟨bc2, h2, hne2, hd2, hp2, hh2, hl2⟩ := ih bc1 hne1 hh1 hl1
      refine ⟨bc2, ?_, hne2, hd2.trans hd1, hp1.trans hp2, hh2, hl2⟩
      simp only [addBlocks, h1]
      exact h2

theorem IsChainValid_of_keeps (L : Lib) (bc : Blockchain)
    (hh : ∀ x ∈ bc.Blocks, x.Hash = CalculateHash L x)
    (hl : ∀ i cur prev, 1 ≤ i → bc.Blocks[i]? = some cur → bc.Blocks[i - 1]? = some prev →
      cur.PrevHash = prev.Hash) :
    bc.IsChainValid L = true := by
  unfold Blockchain.IsChainValid
  rw [isChainValidLoop_eq_true L bc bc.Blocks.length 1 (le_refl 1)]
  intro j cur prev h1 _ hc hp
  rw [ValidateBlock_eq_true]
  exact ⟨hl j cur prev h1 hc hp, hh cur (List.getElem?_mem hc)⟩

theorem NewBlockchain_keeps (L : Lib) (now : Bytes) :
    (NewBlockchain L now).Blocks ≠ [] ∧
    (∀ x ∈ (NewBlockchain L now).Blocks, x.Hash = CalculateHash L x) ∧
    (∀ i cur prev, 1 ≤ i → (NewBlockchain L now).Blocks[i]? = some cur →
      (NewBlockchain L now).Blocks[i - 1]? = some prev → cur.PrevHash = prev.Hash) := by
  refine ⟨by simp [NewBlockchain], ?_, ?_⟩
  · intro x hx
    simp only [NewBlockchain, List.mem_singleton] at hx
    subst hx
    rfl
  · intro i cur prev h1 hc _
    have := (List.getElem?_eq_some.mp hc).1
    simp [NewBlockchain] at this
    omega

/-- C4. Chain integrity is an invariant. From `NewBlockchain()`, any finite sequence of
`AddBlock` calls with arbitrary blocks returns (it never panics), and in the ledger it
leaves every block, genesis included, has `Hash == CalculateHash(block)`, every block after
the first has `PrevHash` equal to the `Hash` of the block before it, and `IsChainValid()`
is true. With no call at all this is the fresh ledger, which is valid. -/
theorem chain_integrity (L : Lib) (now : Bytes) (blocks : List Block) :
    (∃ bc, addBlocks L (NewBlockchain L now) blocks = .ok bc ∧
      (∀ x ∈ bc.Blocks, x.Hash = CalculateHash L x) ∧
      (∀ i cur prev, 1 ≤ i → bc.Blocks[i]? = some cur → bc.Blocks[i - 1]? = some prev →
        cur.PrevHash = prev.Hash) ∧
      bc.IsChainValid L = true) ∧
    (NewBlockchain L now).IsChainValid L = true := by
  obtain ⟨hne, hh, hl⟩ := NewBlockchain_keeps L now
  obtain ⟨bc, h, _, _, _, hh', hl'⟩ := addBlocks_keeps L blocks (NewBlockchain L now) hne hh hl
  exact ⟨⟨bc, h, hh', hl', IsChainValid_of_keeps L bc hh' hl'⟩,
    IsChainValid_of_keeps L _ hh hl⟩

/-! ## The digest has 64 characters -/

theorem SHA256.round_length (s : List Nat) (kw : Nat × Nat) (h : s.length = 8) :
    (SHA256.round s kw).length = 8 := by
  match s, h with
  | [a, b, c, d, e, f, g, x], _ => rfl

theorem SHA256.foldl_round_length (kws : List (Nat × Nat)) :
    ∀ s : List Nat, s.length = 8 → (kws.foldl SHA256.round s).length = 8 := by
  induction kws with
  | nil => intro s h; exact h
  | cons kw rest ih =>
      intro s h
      exact ih _ (SHA256.round_length s kw h)

theorem SHA256.compress_length (h block : List Nat) (hh : h.length = 8) :
    (SHA256.compress h block).length = 8 := by
  simp [SHA256.compress, List.length_zipWith, hh, SHA256.foldl_round_length _ h hh]

theorem SHA256.foldl_compress_length (bs : List (List Nat)) :
    ∀ h : List Nat, h.length = 8 → (bs.foldl SHA256.compress h).length = 8 := by
  induction bs with
  | nil => intro h hh; exact hh
  | cons b rest ih =>
      intro h hh
      exact ih _ (SHA256.compress_length h b hh)

theorem flatMap_length_const {α β : Type} (f : α → List β) (n : Nat)
    (hf : ∀ a, (f a).length = n) : ∀ l : List α, (l.flatMap f).length = n * l.length := by
  intro l
  induction l with
  | nil => simp
  | cons a rest ih =>
      rw [List.flatMap_cons, List.length_append, ih, hf, List.length_cons]
      ring

theorem SHA256.Sum256_length (msg : Bytes) : (SHA256.Sum256 msg).length = 32 := by
  unfold SHA256.Sum256
  simp only
  rw [flatMap_length_const SHA256.wordBytes 4 (fun _ => rfl),
    SHA256.foldl_compress_length _ SHA256.H0 rfl]

theorem hexEncodeToString_length (bs : Bytes) :
    (hexEncodeToString bs).length = 2 * bs.length := by
  unfold hexEncodeToString
  exact flatMap_length_const (fun b : UInt8 => [hexDigit (b.toNat / 16), hexDigit (b.toNat % 16)])
    2 (fun _ => rfl) bs

theorem CalculateHash_length (L : Lib) (b : Block) : (CalculateHash L b).length = 64 := by
  unfold CalculateHash
  simp only
  rw [hexEncodeToString_length, SHA256.Sum256_length]

/-! ## The mining loop -/

theorem stringsRepeat_zero (d : Int) (hd : 0 ≤ d) :
    stringsRepeat (str "0") d = some (List.replicate d.toNat 48) := by
  unfold stringsRepeat
  rw [if_neg (by omega), str_zero]
  congr 1
  induction d.toNat with
  | zero => rfl
  | succ n ih => simp [List.replicate_succ, ih]

theorem stringsRepeat_neg (s : Bytes) (d : Int) (hd : d < 0) : stringsRepeat s d = none := by
  unfold stringsRepeat
  rw [if_pos hd]

theorem stringsHasPrefix_iff (s pre : Bytes) : stringsHasPrefix s pre = true ↔ pre <+: s := by
  unfold stringsHasPrefix
  exact List.isPrefixOf_iff_prefix

theorem stringsHasPrefix_nil (s : Bytes) : stringsHasPrefix s [] = true := by
  rw [stringsHasPrefix_iff]
  exact List.nil_prefix

theorem stringsHasPrefix_long (s pre : Bytes) (h : s.length < pre.length) :
    stringsHasPrefix s pre = false := by
  cases hp : stringsHasPrefix s pre with
  | false => rfl
  | true =>
      have := ((stringsHasPrefix_iff s pre).mp hp).length_le
      omega

/-- What the loop has done when it leaves: `k` increments, none of the nonces before the
last gave a hash with the target in front, the last one did. -/
theorem mineLoop_ok (L : Lib) (target : Bytes) (fuel : Nat) :
    ∀ (b b' : Block) (hash : Bytes), mineLoop L target fuel b = .ok (hash, b') →
      ∃ k, k < fuel ∧ b' = { b with Nonce := nonceAfter b.Nonce k } ∧
        hash = CalculateHash L b' ∧ stringsHasPrefix hash target = true ∧
        ∀ j, j < k →
          stringsHasPrefix (CalculateHash L { b with Nonce := nonceAfter b.Nonce j }) target
            = false := by
  induction fuel with
  | zero =>
      intro b b' hash h
      simp [mineLoop] at h
  | succ n ih =>
      intro b b' hash h
      unfold mineLoop at h
      by_cases hp : stringsHasPrefix (CalculateHash L b) target = true
      · simp only [hp, if_true, Except.ok.injEq, Prod.mk.injEq] at h
        obtain ⟨h1, h2⟩ := h
        subst h1 h2
        exact ⟨0, by omega, rfl, rfl, hp, fun j hj => absurd hj (by omega)⟩
      · have hp' : stringsHasPrefix (CalculateHash L b) target = false := by simpa using hp
        simp only [hp', Bool.false_eq_true, if_false] at h
        obtain ⟨k, hk, hb, hh, ht, hmin⟩ := ih _ _ _ h
        refine ⟨k + 1, by omega, hb, hh, ht, ?_⟩
        intro j hj
        cases j with
        | zero => exact hp'
        | succ j => exact hmin j (by omega)

/-- The loop leaves as soon as a nonce ahead gives a hash with the target in front. -/
theorem mineLoop_hit (L : Lib) (target : Bytes) (k : Nat) :
    ∀ (b : Block) (fuel : Nat), k < fuel →
      stringsHasPrefix (CalculateHash L { b with Nonce := nonceAfter b.Nonce k }) target = true →
      ∃ r, mineLoop L target fuel b = .ok r := by
  induction k with
  | zero =>
      intro b fuel hf hp
      obtain ⟨n, rfl⟩ : ∃ n, fuel = n + 1 := ⟨fuel - 1, by omega⟩
      have hp' : stringsHasPrefix (CalculateHash L b) target = true := hp
      exact ⟨(CalculateHash L b, b), by simp [mineLoop, hp']⟩
  | succ k ih =>
      intro b fuel hf hp
      obtain ⟨n, rfl⟩ : ∃ n, fuel = n + 1 := ⟨fuel - 1, by omega⟩
      by_cases hp0 : stringsHasPrefix (CalculateHash L b) target = true
      · exact ⟨(CalculateHash L b, b), by simp [mineLoop, hp0]⟩
      · have hp0' : stringsHasPrefix (CalculateHash L b) target = false := by simpa using hp0
        obtain ⟨r, hr⟩ := ih { b with Nonce := wrapInt64 (b.Nonce + 1) } n (by omega) hp
        exact ⟨r, by simp only [mineLoop, hp0', Bool.false_eq_true, if_false]; exact hr⟩

/-- The loop never leaves when no block at all has a hash with the target in front. -/
theorem mineLoop_never (L : Lib) (target : Bytes)
    (h : ∀ b, stringsHasPrefix (CalculateHash L b) target = false) (fuel : Nat) :
    ∀ b, mineLoop L target fuel b = .error .outOfFuel := by
  induction fuel with
  | zero => intro b; rfl
  | succ n ih =>
      intro b
      simp only [mineLoop, h b, Bool.false_eq_true, if_false]
      exact ih _

/-! ## Blocks without transactions: the digest does not depend on the library -/

theorem CalculateHash_lib (L L' : Lib) (b : Block) (h : b.Transactions = []) :
    CalculateHash L b = CalculateHash L' b := by
  unfold CalculateHash blockSerialize fmtTransactions
  rw [h]
  rfl

theorem mineLoop_lib (L L' : Lib) (target : Bytes) (fuel : Nat) :
    ∀ b : Block, b.Transactions = [] → mineLoop L target fuel b = mineLoop L' target fuel b := by
  induction fuel with
  | zero => intro b _; rfl
  | succ n ih =>
      intro b hb
      simp only [mineLoop, CalculateHash_lib L L' b hb]
      rw [ih { b with Nonce := wrapInt64 (b.Nonce + 1) } hb]

theorem NewBlock_lib (L L' : Lib) (bc : Blockchain) (fuel : Nat) (now prevHash : Bytes) :
    bc.NewBlock L fuel now [] prevHash = bc.NewBlock L' fuel now [] prevHash := by
  unfold Blockchain.NewBlock Blockchain.MineBlock
  cases stringsRepeat (str "0") bc.Difficulty with
  | none => rfl
  | some target =>
      simp only
      rw [mineLoop_lib L L' target fuel _ rfl]

set_option maxRecDepth 100000 in
theorem CalculateHash_genesis0 (L : Lib) : CalculateHash L genesis0 = genesis0.Hash :=
  (CalculateHash_lib L demoLib genesis0 rfl).trans (by decide)

theorem NewBlockchain_now0 (L : Lib) : NewBlockchain L now0 = ledger0 := by
  have h := CalculateHash_genesis0 L
  simp only [NewBlockchain, ledger0, Blockchain.mk.injEq, and_true, List.cons.injEq]
  exact congrArg (fun x => ({ genesis0 with Hash := x } : Block)) h

theorem MineBlock_lib (L L' : Lib) (bc : Blockchain) (fuel : Nat) (b : Block)
    (hb : b.Transactions = []) : bc.MineBlock L fuel b = bc.MineBlock L' fuel b := by
  unfold Blockchain.MineBlock
  cases stringsRepeat (str "0") bc.Difficulty with
  | none => rfl
  | some target => exact mineLoop_lib L L' target fuel b hb

set_option maxRecDepth 100000 in
theorem MineBlock_candidate1 (L : Lib) :
    Blockchain.MineBlock L { Blocks := [genesis0], Difficulty := 1 } 5 candidate1
      = .ok (mined1.Hash, { candidate1 with Nonce := 4 }) :=
  (MineBlock_lib L demoLib _ 5 candidate1 rfl).trans (by rfl)

theorem NewBlock_of_MineBlock (L : Lib) (bc : Blockchain) (fuel : Nat) (now : Bytes)
    (transactions : List Transaction) (prevHash hash : Bytes) (blk : Block)
    (h : bc.MineBlock L fuel
      { Index := (bc.Blocks.length : Int), Timestamp := now, Transactions := transactions,
        PrevHash := prevHash, Hash := [], Nonce := 0 } = .ok (hash, blk)) :
    bc.NewBlock L fuel now transactions prevHash = .ok { blk with Hash := hash } := by
  unfold Blockchain.NewBlock
  simp only
  rw [h]

theorem NewBlock_mined1 (L : Lib) :
    Blockchain.NewBlock L { Blocks := [genesis0], Difficulty := 1 } 5 now1 [] genesis0.Hash
      = .ok mined1 :=
  NewBlock_of_MineBlock L { Blocks := [genesis0], Difficulty := 1 } 5 now1 [] genesis0.Hash
    mined1.Hash { candidate1 with Nonce := 4 } (MineBlock_candidate1 L)

/-! ## Mining and appending -/

theorem MineBlock_eq (L : Lib) (bc : Blockchain) (fuel : Nat) (block : Block)
    (hd : 0 ≤ bc.Difficulty) :
    bc.MineBlock L fuel block = mineLoop L (List.replicate bc.Difficulty.toNat 48) fuel block := by
  unfold Blockchain.MineBlock
  rw [stringsRepeat_zero bc.Difficulty hd]

theorem MineBlock_ok_nonneg (L : Lib) (bc : Blockchain) (fuel : Nat) (block : Block)
    (r : Bytes × Block) (h : bc.MineBlock L fuel block = .ok r) : 0 ≤ bc.Difficulty := by
  by_contra hd
  unfold Blockchain.MineBlock at h
  rw [stringsRepeat_neg _ _ (by omega)] at h
  cases h

theorem NewBlock_ok (L : Lib) (bc : Blockchain) (fuel : Nat) (now : Bytes)
    (transactions : List Transaction) (prevHash : Bytes) (b : Block)
    (h : bc.NewBlock L fuel now transactions prevHash = .ok b) :
    0 ≤ bc.Difficulty ∧ b.Index = bc.Blocks.length ∧ b.Timestamp = now ∧
      b.Transactions = transactions ∧ b.PrevHash = prevHash ∧ b.Hash = CalculateHash L b ∧
      List.replicate bc.Difficulty.toNat 48 <+: b.Hash := by
  unfold Blockchain.NewBlock at h
  simp only at h
  cases hm : bc.MineBlock L fuel
      { Index := (bc.Blocks.length : Int), Timestamp := now, Transactions := transactions,
        PrevHash := prevHash, Hash := [], Nonce := 0 } with
  | error e => rw [hm] at h; cases h
  | ok r =>
      obtain ⟨hash, blk⟩ := r
      rw [hm] at h
      simp only [Except.ok.injEq] at h
      have hd := MineBlock_ok_nonneg L bc fuel _ _ hm
      rw [MineBlock_eq L bc fuel _ hd] at hm
      obtain ⟨k, _, hb, hh, ht, _⟩ := mineLoop_ok L _ fuel _ _ _ hm
      subst h
      subst hb
      refine ⟨hd, rfl, rfl, rfl, rfl, hh, ?_⟩
      exact (stringsHasPrefix_iff _ _).mp ht

/-- C5. Whenever `NewBlock(transactions, prevHash)` returns a block, the ledger's
`Difficulty` is not negative, the block has `Index` equal to the number of blocks of the
ledger, `Timestamp`, `Transactions` and `PrevHash` as given, `Hash` equal to
`CalculateHash` of the returned block (with its final `Nonce`), and `Hash` begins with
`Difficulty` characters `0`. `NewBlock` only reads the ledger: it returns a block and no
ledger. -/
theorem NewBlock_spec (L : Lib) (bc : Blockchain) (fuel : Nat) (now : Bytes)
    (transactions : List Transaction) (prevHash : Bytes) (b : Block)
    (h : bc.NewBlock L fuel now transactions prevHash = .ok b) :
    0 ≤ bc.Difficulty ∧ b.Index = bc.Blocks.length ∧ b.Timestamp = now ∧
      b.Transactions = transactions ∧ b.PrevHash = prevHash ∧ b.Hash = CalculateHash L b ∧
      List.replicate bc.Difficulty.toNat 48 <+: b.Hash :=
  NewBlock_ok L bc fuel now transactions prevHash b h

/-- Witness of C5: on the ledger of difficulty 1 that holds `genesis0`, `NewBlock` at `now1`
returns `mined1` after five hashes, whatever the library. -/
theorem NewBlock_spec_witness :
    mined1.Nonce = 4 ∧
    ∀ L : Lib,
      Blockchain.NewBlock L { Blocks := [genesis0], Difficulty := 1 } 5 now1 [] genesis0.Hash
        = .ok mined1 ∧
      ((0 : Int) ≤ 1 ∧ mined1.Index = 1 ∧ mined1.Timestamp = now1 ∧ mined1.Transactions = [] ∧
        mined1.PrevHash = genesis0.Hash ∧ mined1.Hash = CalculateHash L mined1 ∧
        List.replicate 1 48 <+: mined1.Hash) :=
  ⟨rfl, fun L => ⟨NewBlock_mined1 L,
    NewBlock_spec L { Blocks := [genesis0], Difficulty := 1 } 5 now1 [] genesis0.Hash mined1
      (NewBlock_mined1 L)⟩⟩

theorem getLast?_concat (l : List Block) (b : Block) : (l ++ [b]).getLast? = some b := by
  simp

/-- C6. Mining on the tip and appending succeeds: on a ledger whose last block is `tip`,
whenever `NewBlock(transactions, tip.Hash)` returns `b`, `ValidateBlock(b, tip)` is true and
`AddBlock(b)` leaves the old block sequence followed by `b`: one block longer, `b` last,
and `b.PrevHash` is the hash of the tip it was mined on. -/
theorem mine_then_append (L : Lib) (bc : Blockchain) (fuel : Nat) (now : Bytes)
    (transactions : List Transaction) (tip b : Block)
    (htip : bc.Blocks.getLast? = some tip)
    (h : bc.NewBlock L fuel now transactions tip.Hash = .ok b) :
    bc.ValidateBlock L b tip = true ∧
      bc.AddBlock L b = .ok { bc with Blocks := bc.Blocks ++ [b] } ∧
      (bc.Blocks ++ [b]).length = bc.Blocks.length + 1 ∧
      (bc.Blocks ++ [b]).getLast? = some b ∧ b.PrevHash = tip.Hash := by
  obtain ⟨_, _, _, _, hp, hh, _⟩ := NewBlock_ok L bc fuel now transactions tip.Hash b h
  have hv : bc.ValidateBlock L b tip = true := (ValidateBlock_eq_true L bc b tip).mpr ⟨hp, hh⟩
  refine ⟨hv, ?_, by simp, getLast?_concat _ _, hp⟩
  rw [AddBlock_eq L bc b tip htip, hv]
  rfl

/-- Witness of C6: the ledger of difficulty 1 that holds `genesis0` mines `mined1` on its
tip and appends it. -/
theorem mine_then_append_witness :
    [genesis0].getLast? = some genesis0 ∧
    ∀ L : Lib,
      Blockchain.NewBlock L { Blocks := [genesis0], Difficulty := 1 } 5 now1 [] genesis0.Hash
        = .ok mined1 ∧
      Blockchain.AddBlock L { Blocks := [genesis0], Difficulty := 1 } mined1
        = .ok { Blocks := [genesis0, mined1], Difficulty := 1 } :=
  ⟨rfl, fun L => ⟨NewBlock_mined1 L,
    (mine_then_append L { Blocks := [genesis0], Difficulty := 1 } 5 now1 [] genesis0 mined1 rfl
      (NewBlock_mined1 L)).2.1⟩⟩

/-- Witness of C3: the ledger `NewBlockchain()` returns at `now0` ends in `genesis0`, and
`AddBlock` of `unmined1` behaves on it as C3 says. -/
theorem AddBlock_spec_witness :
    ledger0.Blocks.getLast? = some genesis0 ∧
    ∀ L : Lib, ∃ bc', ledger0.AddBlock L unmined1 = .ok bc' ∧
      bc'.Difficulty = ledger0.Difficulty ∧
      (bc'.Blocks = ledger0.Blocks ++ [unmined1] ↔
        ledger0.ValidateBlock L unmined1 genesis0 = true) ∧
      (ledger0.ValidateBlock L unmined1 genesis0 = true →
        bc'.Blocks = ledger0.Blocks ++ [unmined1] ∧
          bc'.Blocks.length = ledger0.Blocks.length + 1 ∧
          ∀ i, i < ledger0.Blocks.length → bc'.Blocks[i]? = ledger0.Blocks[i]?) ∧
      (ledger0.ValidateBlock L unmined1 genesis0 = false → bc' = ledger0) ∧
      (unmined1.PrevHash ≠ genesis0.Hash → bc' = ledger0) :=
  ⟨rfl, fun L => AddBlock_spec ledger0 unmined1 genesis0 rfl L⟩

/-! ## Termination of the mining loop -/

theorem mineLoop_mono (L : Lib) (target : Bytes) (fuel : Nat) :
    ∀ (b : Block) (r : Bytes × Block) (m : Nat), mineLoop L target fuel b = .ok r →
      mineLoop L target (fuel + m) b = .ok r := by
  induction fuel with
  | zero => intro b r m h; simp [mineLoop] at h
  | succ n ih =>
      intro b r m h
      rw [Nat.add_right_comm]
      unfold mineLoop at h ⊢
      by_cases hp : stringsHasPrefix (CalculateHash L b) target = true
      · simpa [hp] using h
      · have hp' : stringsHasPrefix (CalculateHash L b) target = false := by simpa using hp
        simp only [hp', Bool.false_eq_true, if_false] at h ⊢
        exact ih _ r m h

theorem MineBlock_never (L : Lib) (bc : Blockchain) (fuel : Nat) (block : Block)
    (hd : 64 < bc.Difficulty) : bc.MineBlock L fuel block = .error .outOfFuel := by
  rw [MineBlock_eq L bc fuel block (by omega)]
  apply mineLoop_never
  intro b
  apply stringsHasPrefix_long
  rw [CalculateHash_length, List.length_replicate]
  omega

/-- C7, what fails. On a ledger of difficulty 65 `MineBlock` does not terminate on the
candidate `candidate1`: whatever the library and however many iterations it is given, the
loop has not left, because a digest has 64 characters and the target 65. -/
theorem MineBlock_diverges :
    (0 : Int) ≤ 65 ∧
    ∀ (L : Lib) (fuel : Nat),
      Blockchain.MineBlock L { Blocks := [genesis0], Difficulty := 65 } fuel candidate1
        = .error .outOfFuel :=
  ⟨by decide, fun L fuel => MineBlock_never L _ fuel candidate1 (by decide)⟩

/-- C7, amended. For every difficulty `d ≥ 0` and every candidate block: whenever
`MineBlock` returns, the hash it returns begins with `d` characters `0` (a minimum run:
nothing is asked of the next character) and is `CalculateHash` of the block as mined; it
terminates exactly when one of the nonces the loop reaches by `Nonce++` from the
candidate's gives a hash that begins with `d` characters `0`; so it terminates at once
when `d = 0`, and never when `d > 64`. -/
theorem MineBlock_spec (L : Lib) (bc : Blockchain) (block : Block) (hd : 0 ≤ bc.Difficulty) :
    (∀ fuel hash block', bc.MineBlock L fuel block = .ok (hash, block') →
      List.replicate bc.Difficulty.toNat 48 <+: hash ∧ hash = CalculateHash L block') ∧
    ((∃ fuel r, bc.MineBlock L fuel block = .ok r) ↔
      ∃ k, List.replicate bc.Difficulty.toNat 48 <+:
        CalculateHash L { block with Nonce := nonceAfter block.Nonce k }) ∧
    (bc.Difficulty = 0 → bc.MineBlock L 1 block = .ok (CalculateHash L block, block)) ∧
    (64 < bc.Difficulty → ∀ fuel, bc.MineBlock L fuel block = .error .outOfFuel) := by
  refine ⟨?_, ⟨?_, ?_⟩, ?_, ?_⟩
  · intro fuel hash block' h
    rw [MineBlock_eq L bc fuel block hd] at h
    obtain ⟨k, _, _, hh, ht, _⟩ := mineLoop_ok L _ fuel _ _ _ h
    exact ⟨(stringsHasPrefix_iff _ _).mp ht, hh⟩
  · rintro ⟨fuel, ⟨hash, block'⟩, h⟩
    rw [MineBlock_eq L bc fuel block hd] at h
    obtain ⟨k, _, hb, hh, ht, _⟩ := mineLoop_ok L _ fuel _ _ _ h
    refine ⟨k, ?_⟩
    rw [← hb, ← hh]
    exact (stringsHasPrefix_iff _ _).mp ht
  · rintro ⟨k, hk⟩
    obtain ⟨r, hr⟩ := mineLoop_hit L _ k block (k + 1) (by omega)
      ((stringsHasPrefix_iff _ _).mpr hk)
    exact ⟨k + 1, r, by rw [MineBlock_eq L bc (k + 1) block hd]; exact hr⟩
  · intro h0
    rw [MineBlock_eq L bc 1 block hd, h0]
    simp [mineLoop, stringsHasPrefix_nil]
  · intro h64 fuel
    exact MineBlock_never L bc fuel block h64

/-- Witness of C7, amended: at difficulty 1 the hypothesis holds, and on `candidate1` the
loop leaves after five hashes, at nonce 4, with a hash that begins with `0`. -/
theorem MineBlock_spec_witness :
    (0 : Int) ≤ 1 ∧
    ∀ L : Lib,
      Blockchain.MineBlock L { Blocks := [genesis0], Difficulty := 1 } 5 candidate1
        = .ok (mined1.Hash, { candidate1 with Nonce := 4 }) ∧
      List.replicate 1 48 <+: mined1.Hash :=
  ⟨by decide, fun L => ⟨MineBlock_candidate1 L,
    ((MineBlock_spec L { Blocks := [genesis0], Difficulty := 1 } candidate1 (by decide)).1 5 _ _
      (MineBlock_candidate1 L)).1⟩⟩

/-! ## The fresh ledger -/

/-- C8. `NewBlockchain()` returns a ledger with exactly one block, the genesis block: `Index`
0, no transaction, `PrevHash` the sentinel `"0"`, `Nonce` 0, and `Hash` equal to
`CalculateHash(genesis)`, computed once from the fields with `Nonce` 0 and not mined; its
`Difficulty` is 4. That the hash need not begin with a zero shows at `now0`, where it
begins with `c`. -/
theorem NewBlockchain_spec (L : Lib) (now : Bytes) :
    (∃ genesis, (NewBlockchain L now).Blocks = [genesis] ∧ genesis.Index = 0 ∧
      genesis.Timestamp = now ∧ genesis.Transactions = [] ∧ genesis.PrevHash = str "0" ∧
      genesis.Nonce = 0 ∧ genesis.Hash = CalculateHash L genesis ∧
      genesis.Hash = CalculateHash L
        { Index := 0, Timestamp := now, Transactions := [], PrevHash := str "0", Hash := [],
          Nonce := 0 }) ∧
    (NewBlockchain L now).Difficulty = 4 ∧
    (∃ genesis, (NewBlockchain L now0).Blocks = [genesis] ∧
      stringsHasPrefix genesis.Hash (str "0") = false ∧
      stringsHasPrefix genesis.Hash (str "c") = true) := by
  refine ⟨⟨_, rfl, rfl, rfl, rfl, rfl, rfl, rfl, rfl⟩, rfl, genesis0, ?_, by decide, by decide⟩
  rw [NewBlockchain_now0]
  rfl

/-! ## Tampering with a block of the ledger -/

set_option maxRecDepth 100000 in
theorem CalculateHash_unmined1 (L : Lib) : CalculateHash L unmined1 = unmined1.Hash :=
  (CalculateHash_lib L demoLib unmined1 rfl).trans (by decide)

/-- A ledger of two blocks is valid exactly when the second validates against the first. -/
theorem IsChainValid_two (L : Lib) (g b : Block) (d : Int) :
    Blockchain.IsChainValid L { Blocks := [g, b], Difficulty := d } =
      Blockchain.ValidateBlock L { Blocks := [g, b], Difficulty := d } b g := by
  simp [Blockchain.IsChainValid, Blockchain.isChainValidLoop]

theorem NewTransaction_ok (L : Lib) (rand sender receiver : Bytes) (amount : Float64)
    (priv : L.PrivateKey) (tx : Transaction)
    (h : NewTransaction L rand sender receiver amount priv = .ok tx) :
    tx.Sender = sender ∧ tx.Receiver = receiver ∧ tx.Amount = amount ∧
      L.SignPKCS1v15 rand priv (SHA256.Sum256 (sender ++ receiver ++ L.fmtFloatF amount))
        = .ok tx.Signature := by
  unfold NewTransaction SignTransaction at h
  simp only [txSerialize] at h
  cases hs : L.SignPKCS1v15 rand priv
      (SHA256.Sum256 (sender ++ receiver ++ L.fmtFloatF amount)) with
  | error e =>
      rw [hs] at h
      cases h
  | ok sig =>
      rw [hs] at h
      simp only [Except.ok.injEq] at h
      subst h
      exact ⟨rfl, rfl, rfl, rfl⟩

/-- C10. Signature round trip. For a key pair that is matched (the public key accepts, for a
digest, every signature the private key makes of it): whenever
`NewTransaction(sender, receiver, amount, priv)` returns a transaction, it carries the given
sender, receiver and amount, its `Signature` is what `SignPKCS1v15` returned for the SHA-256
digest of `sender ++ receiver ++ format(amount)`, and `ValidateTransaction(tx, pub)` is true.
Signing and verification digest the same text, which leaves the `Signature` field out:
for every transaction and every key, `ValidateTransaction` is the verdict of
`VerifyPKCS1v15` on the `Signature` field and the digest of
`Sender ++ Receiver ++ format(Amount)`, true exactly when the library returns no error; and
for all arguments `NewTransaction` returns the three fields with the signature
`SignPKCS1v15` makes of the digest of that text, or the error of `SignPKCS1v15`. -/
theorem sign_verify_roundtrip (L : Lib) (rand sender receiver : Bytes) (amount : Float64)
    (priv : L.PrivateKey) (pub : L.PublicKey) (tx : Transaction)
    (hm : Matched L priv pub)
    (h : NewTransaction L rand sender receiver amount priv = .ok tx) :
    tx.Sender = sender ∧ tx.Receiver = receiver ∧ tx.Amount = amount ∧
    ValidateTransaction L tx pub = true ∧
    L.SignPKCS1v15 rand priv (SHA256.Sum256 (sender ++ receiver ++ L.fmtFloatF amount))
      = .ok tx.Signature ∧
    ValidateTransaction L tx pub =
      (L.VerifyPKCS1v15 pub (SHA256.Sum256 (sender ++ receiver ++ L.fmtFloatF amount))
        tx.Signature).isNone ∧
    (∀ sig, txSerialize L { tx with Signature := sig } = txSerialize L tx) ∧
    (∀ (t : Transaction) (key : L.PublicKey),
      ValidateTransaction L t key =
        (L.VerifyPKCS1v15 key (SHA256.Sum256 (t.Sender ++ t.Receiver ++ L.fmtFloatF t.Amount))
          t.Signature).isNone) ∧
    (∀ (t : Transaction) (key : L.PublicKey),
      ValidateTransaction L t key = false ↔
        ∃ err, L.VerifyPKCS1v15 key
          (SHA256.Sum256 (t.Sender ++ t.Receiver ++ L.fmtFloatF t.Amount)) t.Signature
            = some err) ∧
    (∀ (rnd s r : Bytes) (a : Float64) (key : L.PrivateKey),
      NewTransaction L rnd s r a key =
        match L.SignPKCS1v15 rnd key (SHA256.Sum256 (s ++ r ++ L.fmtFloatF a)) with
        | .error err => .error err
        | .ok sig => .ok { Sender := s, Receiver := r, Amount := a, Signature := sig }) := by
  obtain ⟨h1, h2, h3, h4⟩ := NewTransaction_ok L rand sender receiver amount priv tx h
  have hv : ValidateTransaction L tx pub =
      (L.VerifyPKCS1v15 pub (SHA256.Sum256 (sender ++ receiver ++ L.fmtFloatF amount))
        tx.Signature).isNone := by
    unfold ValidateTransaction txSerialize
    rw [h1, h2, h3]
  refine ⟨h1, h2, h3, ?_, h4, hv, fun _ => rfl, fun _ _ => rfl, ?_, ?_⟩
  · rw [hv, hm rand _ _ h4]
    rfl
  · intro t key
    show (L.VerifyPKCS1v15 key
      (SHA256.Sum256 (t.Sender ++ t.Receiver ++ L.fmtFloatF t.Amount)) t.Signature).isNone
        = false ↔ _
    cases L.VerifyPKCS1v15 key
      (SHA256.Sum256 (t.Sender ++ t.Receiver ++ L.fmtFloatF t.Amount)) t.Signature with
    | none => simp
    | some e => simp
  · intro rnd s r a key
    unfold NewTransaction SignTransaction
    simp only [txSerialize]
    cases L.SignPKCS1v15 rnd key (SHA256.Sum256 (s ++ r ++ L.fmtFloatF a)) <;> rfl

theorem os2ip_two (s : Nat) (hs : s < 65536) :
    os2ip [UInt8.ofNat (s / 256), UInt8.ofNat (s % 256)] = s := by
  have h1 : (UInt8.ofNat (s / 256)).toNat = s / 256 :=
    UInt8.toNat_ofNat_of_lt (by simp only [UInt8.size]; omega)
  have h2 : (UInt8.ofNat (s % 256)).toNat = s % 256 :=
    UInt8.toNat_ofNat_of_lt (by simp only [UInt8.size]; omega)
  simp only [os2ip, List.foldl_cons, List.foldl_nil, h1, h2]
  omega

/-- The public key of a private key of `demoLib` with a modulus of at most two bytes
accepts what the private key signs. -/
theorem demoLib_matched (priv : DemoPrivateKey) (hN0 : 0 < priv.PublicKey.N)
    (hN : priv.PublicKey.N ≤ 65536) : Matched demoLib priv priv.PublicKey := by
  intro rand hashed sig h
  have hs : (os2ip hashed % priv.PublicKey.N) ^ priv.D % priv.PublicKey.N < 65536 :=
    lt_of_lt_of_le (Nat.mod_lt _ hN0) hN
  simp only [demoLib] at h ⊢
  split at h
  · rename_i hc
    simp only [Except.ok.injEq] at h
    subst h
    rw [os2ip_two _ hs, if_pos ⟨rfl, hc⟩]
  · cases h

set_option exponentiation.threshold 4096 in
set_option maxRecDepth 100000 in
theorem NewTransaction_txDemo :
    NewTransaction demoLib [] (str "Natasha") (str "Ashot") ⟨0x4059000000000000⟩ demoPriv
      = .ok txDemo := by
  rfl

set_option maxRecDepth 100000 in
theorem VerifyPKCS1v15_demo_wrong_signature :
    (demoLib.VerifyPKCS1v15 demoPriv.PublicKey
      (SHA256.Sum256 (txDemoWrongSig.Sender ++ txDemoWrongSig.Receiver ++
        demoLib.fmtFloatF txDemoWrongSig.Amount))
      txDemoWrongSig.Signature).isNone = false := by
  rfl

set_option maxRecDepth 100000 in
theorem VerifyPKCS1v15_demo_wrong_text :
    (demoLib.VerifyPKCS1v15 demoPriv.PublicKey
      (SHA256.Sum256 (txDemoBoris.Sender ++ txDemoBoris.Receiver ++
        demoLib.fmtFloatF txDemoBoris.Amount))
      txDemoBoris.Signature).isNone = false := by
  rfl

/-- Witness of C10: with `demoLib`, `demoPriv` and its public key are matched, and
`NewTransaction("Natasha", "Ashot", 100, demoPriv)` returns `txDemo`, which its public key
validates; the same key does not validate `txDemoWrongSig`, which is `txDemo` with the
signature `[5, 64]` in place of `[5, 63]`, nor `txDemoBoris`, which is `txDemo` with the
receiver `Boris`: the verdict is the library's. -/
theorem sign_verify_roundtrip_witness :
    Matched demoLib demoPriv demoPriv.PublicKey ∧
    NewTransaction demoLib [] (str "Natasha") (str "Ashot") ⟨0x4059000000000000⟩ demoPriv
      = .ok txDemo ∧
    txDemo.Signature = [5, 63] ∧
    ValidateTransaction demoLib txDemo demoPriv.PublicKey = true ∧
    ValidateTransaction demoLib txDemoWrongSig demoPriv.PublicKey = false ∧
    ValidateTransaction demoLib txDemoBoris demoPriv.PublicKey = false :=
  ⟨demoLib_matched demoPriv (by decide) (by decide), NewTransaction_txDemo, rfl,
    (sign_verify_roundtrip demoLib [] (str "Natasha") (str "Ashot") ⟨0x4059000000000000⟩
      demoPriv demoPriv.PublicKey txDemo (demoLib_matched demoPriv (by decide) (by decide))
      NewTransaction_txDemo).2.2.2.1,
    Eq.trans ((sign_verify_roundtrip demoLib [] (str "Natasha") (str "Ashot")
      ⟨0x4059000000000000⟩ demoPriv demoPriv.PublicKey txDemo
      (demoLib_matched demoPriv (by decide) (by decide))
      NewTransaction_txDemo).2.2.2.2.2.2.2.1 txDemoWrongSig demoPriv.PublicKey)
      VerifyPKCS1v15_demo_wrong_signature,
    Eq.trans ((sign_verify_roundtrip demoLib [] (str "Natasha") (str "Ashot")
      ⟨0x4059000000000000⟩ demoPriv demoPriv.PublicKey txDemo
      (demoLib_matched demoPriv (by decide) (by decide))
      NewTransaction_txDemo).2.2.2.2.2.2.2.1 txDemoBoris demoPriv.PublicKey)
      VerifyPKCS1v15_demo_wrong_text⟩

/-! ## The digest as a function of the block -/

/-- C12. `CalculateHash` is a function of the fields `Index`, `Timestamp`, `Transactions`,
`PrevHash` and `Nonce` alone: it is the hexadecimal SHA-256 digest of their serialization,
two blocks that agree on these five fields have the same digest whatever their `Hash`
fields hold, and the digest of a block is the same before and after its `Hash` field has
been filled in, with the digest itself or with anything else. -/
theorem CalculateHash_deterministic (L : Lib) :
    (∀ b : Block, CalculateHash L b = hexEncodeToString (SHA256.Sum256
      (fmtInt b.Index ++ b.Timestamp ++ fmtTransactions L b.Transactions ++ b.PrevHash ++
        fmtInt b.Nonce))) ∧
    (∀ b b' : Block, b.Index = b'.Index → b.Timestamp = b'.Timestamp →
      b.Transactions = b'.Transactions → b.PrevHash = b'.PrevHash → b.Nonce = b'.Nonce →
      CalculateHash L b = CalculateHash L b') ∧
    (∀ (b : Block) (h : Bytes), CalculateHash L { b with Hash := h } = CalculateHash L b) ∧
    (∀ b : Block, CalculateHash L { b with Hash := CalculateHash L b } = CalculateHash L b) := by
  refine ⟨fun _ => rfl, ?_, fun _ _ => rfl, fun _ => rfl⟩
  intro b b' h1 h2 h3 h4 h5
  unfold CalculateHash blockSerialize
  rw [h1, h2, h3, h4, h5]

/-- C19. The text `CalculateHash` digests is the decimal `Index`, the `Timestamp`, the
printed `Transactions`, the `PrevHash` and the decimal `Nonce`, one after the other with
nothing between them, and it does not tell blocks apart: `collideA` (`Index` 1, `Timestamp`
`2x`) and `collideB` (`Index` 12, `Timestamp` `x`) differ, have the same text, and so the
same digest. -/
theorem blockSerialize_not_injective (L : Lib) :
    (∀ b : Block, blockSerialize L b =
      fmtInt b.Index ++ b.Timestamp ++ fmtTransactions L b.Transactions ++ b.PrevHash ++
        fmtInt b.Nonce) ∧
    (∀ b : Block, CalculateHash L b = hexEncodeToString (SHA256.Sum256 (blockSerialize L b))) ∧
    collideA ≠ collideB ∧ collideA.Index ≠ collideB.Index ∧
    collideA.Timestamp ≠ collideB.Timestamp ∧
    collideA.Transactions = collideB.Transactions ∧ collideA.PrevHash = collideB.PrevHash ∧
    collideA.Nonce = collideB.Nonce ∧
    blockSerialize L collideA = blockSerialize L collideB ∧
    CalculateHash L collideA = CalculateHash L collideB := by
  have hs : blockSerialize L collideA = blockSerialize L collideB := by
    have e : fmtInt 1 ++ str "2x" = fmtInt 12 ++ str "x" := by decide
    simp only [blockSerialize, collideA, collideB]
    rw [e]
  refine ⟨fun _ => rfl, fun _ => rfl, by decide, by decide, by decide, rfl, rfl, rfl, hs, ?_⟩
  unfold CalculateHash
  rw [hs]

/-! ## Mining: difficulty 0, what is written, the least nonce -/

theorem MineBlock_zero (L : Lib) (bc : Blockchain) (h0 : bc.Difficulty = 0) (fuel : Nat)
    (block : Block) : bc.MineBlock L (fuel + 1) block = .ok (CalculateHash L block, block) := by
  rw [MineBlock_eq L bc (fuel + 1) block (by omega), h0]
  simp [mineLoop, stringsHasPrefix_nil]

/-- C13. On a ledger with `Difficulty` 0, `MineBlock` leaves the loop in its first iteration,
after one hash and no increment: given at least one iteration it returns `CalculateHash` of
the block as it was given and leaves the block, its `Nonce` included, as it was; so
`NewBlock` returns a block with `Nonce` 0 whose `Hash` is its digest. -/
theorem MineBlock_difficulty_zero (bc : Blockchain) (h0 : bc.Difficulty = 0) :
    ∀ (L : Lib) (fuel : Nat),
      (∀ block : Block,
        bc.MineBlock L (fuel + 1) block = .ok (CalculateHash L block, block)) ∧
      (∀ (now : Bytes) (transactions : List Transaction) (prevHash : Bytes),
        ∃ b, bc.NewBlock L (fuel + 1) now transactions prevHash = .ok b ∧ b.Nonce = 0 ∧
          b.Hash = CalculateHash L b ∧ b.Index = bc.Blocks.length ∧ b.Timestamp = now ∧
          b.Transactions = transactions ∧ b.PrevHash = prevHash) := by
  intro L fuel
  refine ⟨fun block => MineBlock_zero L bc h0 fuel block, ?_⟩
  intro now transactions prevHash
  exact ⟨_, NewBlock_of_MineBlock L bc (fuel + 1) now transactions prevHash _ _
    (MineBlock_zero L bc h0 fuel _), rfl, rfl, rfl, rfl, rfl, rfl⟩

/-- Witness of C13: the ledger that holds `genesis0` at difficulty 0; on `candidate1` one
iteration returns its digest, the hash of `unmined1`, and the nonce stays 0. -/
theorem MineBlock_difficulty_zero_witness :
    ({ Blocks := [genesis0], Difficulty := 0 } : Blockchain).Difficulty = 0 ∧
    ∀ L : Lib,
      Blockchain.MineBlock L { Blocks := [genesis0], Difficulty := 0 } 1 candidate1
        = .ok (unmined1.Hash, candidate1) ∧
      Blockchain.NewBlock L { Blocks := [genesis0], Difficulty := 0 } 1 now1 [] genesis0.Hash
        = .ok unmined1 := by
  refine ⟨rfl, fun L => ?_⟩
  have h := (MineBlock_difficulty_zero { Blocks := [genesis0], Difficulty := 0 } rfl L 0).1
    candidate1
  have e : CalculateHash L candidate1 = unmined1.Hash :=
    (CalculateHash_setHash L unmined1 []).trans (CalculateHash_unmined1 L)
  rw [e] at h
  exact ⟨h, NewBlock_of_MineBlock L { Blocks := [genesis0], Difficulty := 0 } 1 now1 []
    genesis0.Hash unmined1.Hash candidate1 h⟩

/-- C14, what fails. On the ledger of difficulty 1 that holds `genesis0`, `MineBlock` on
`candidate1` returns the hash of `mined1` and leaves the block with `Nonce` 4 and its `Hash`
as it was, empty: not the hash returned. -/
theorem MineBlock_leaves_Hash :
    ({ candidate1 with Nonce := 4 } : Block).Hash = [] ∧
    ({ candidate1 with Nonce := 4 } : Block).Hash ≠ mined1.Hash ∧
    ∀ L : Lib,
      Blockchain.MineBlock L { Blocks := [genesis0], Difficulty := 1 } 5 candidate1
        = .ok (mined1.Hash, { candidate1 with Nonce := 4 }) :=
  ⟨rfl, by decide, fun L => MineBlock_candidate1 L⟩

/-- C14, amended. Whenever `MineBlock(block)` returns hash `h`, the block has been updated in
place with the nonce of the search only: `block.Nonce` is the satisfying nonce, reached by
`Nonce++` from the nonce given, `h` is `CalculateHash` of the block with it and begins with
`Difficulty` characters `0`, and every other field of the block (`Index`, `Timestamp`,
`Transactions`, `PrevHash`, and `Hash` too) is as it was; `MineBlock` only reads the
ledger. It is `NewBlock` that stores the returned hash in the `Hash` of its block. -/
theorem MineBlock_frame (L : Lib) (bc : Blockchain) (fuel : Nat) (block block' : Block)
    (hash : Bytes) (h : bc.MineBlock L fuel block = .ok (hash, block')) :
    block'.Index = block.Index ∧ block'.Timestamp = block.Timestamp ∧
    block'.Transactions = block.Transactions ∧ block'.PrevHash = block.PrevHash ∧
    block'.Hash = block.Hash ∧
    (∃ k, block'.Nonce = nonceAfter block.Nonce k) ∧
    hash = CalculateHash L block' ∧
    List.replicate bc.Difficulty.toNat 48 <+: hash ∧
    (∀ (now : Bytes) (transactions : List Transaction) (prevHash hash1 : Bytes) (mined : Block),
      bc.MineBlock L fuel
        { Index := (bc.Blocks.length : Int), Timestamp := now, Transactions := transactions,
          PrevHash := prevHash, Hash := [], Nonce := 0 } = .ok (hash1, mined) →
      bc.NewBlock L fuel now transactions prevHash = .ok { mined with Hash := hash1 }) := by
  have hd := MineBlock_ok_nonneg L bc fuel block _ h
  rw [MineBlock_eq L bc fuel block hd] at h
  obtain ⟨k, _, hb, hh, ht, _⟩ := mineLoop_ok L _ fuel _ _ _ h
  refine ⟨?_, ?_, ?_, ?_, ?_, ⟨k, ?_⟩, hh, (stringsHasPrefix_iff _ _).mp ht, ?_⟩
  · rw [hb]
  · rw [hb]
  · rw [hb]
  · rw [hb]
  · rw [hb]
  · rw [hb]
  · intro now transactions prevHash hash1 mined hm
    exact NewBlock_of_MineBlock L bc fuel now transactions prevHash hash1 mined hm

/-- Witness of C14, amended: the run of `MineBlock` on `candidate1` at difficulty 1. -/
theorem MineBlock_frame_witness :
    mined1.Nonce = 4 ∧
    ∀ L : Lib,
      Blockchain.MineBlock L { Blocks := [genesis0], Difficulty := 1 } 5 candidate1
        = .ok (mined1.Hash, { candidate1 with Nonce := 4 }) ∧
      ({ candidate1 with Nonce := 4 } : Block).Hash = candidate1.Hash ∧
      mined1.Hash = CalculateHash L { candidate1 with Nonce := 4 } :=
  ⟨rfl, fun L => ⟨MineBlock_candidate1 L,
    (MineBlock_frame L { Blocks := [genesis0], Difficulty := 1 } 5 candidate1
      { candidate1 with Nonce := 4 } mined1.Hash (MineBlock_candidate1 L)).2.2.2.2.1,
    (MineBlock_frame L { Blocks := [genesis0], Difficulty := 1 } 5 candidate1
      { candidate1 with Nonce := 4 } mined1.Hash (MineBlock_candidate1 L)).2.2.2.2.2.2.1⟩⟩

theorem wrapInt64_succ (n : Int) (h0 : 0 ≤ n) (h1 : n + 1 < 2 ^ 63) : wrapInt64 (n + 1) = n + 1 := by
  unfold wrapInt64
  norm_num at h1 ⊢
  omega

/-- Below the largest `int`, `k` increments from a nonce that is not negative add `k`. -/
theorem nonceAfter_eq (k : Nat) : ∀ n : Int, 0 ≤ n → n + k < 2 ^ 63 → nonceAfter n k = n + k := by
  induction k with
  | zero => intro n _ _; simp [nonceAfter]
  | succ k ih =>
      intro n h0 h1
      have h2 : n + 1 < 2 ^ 63 := by push_cast at h1; omega
      rw [nonceAfter, wrapInt64_succ n h0 h2, ih (n + 1) (by omega) (by push_cast at h1; omega)]
      push_cast
      ring

/-- C15. Mining is a linear search from nonce 0 that stops at the first hit. On a ledger with
`Difficulty` `d ≥ 0` and a candidate with `Nonce` 0: if some nonce `n ≥ 0` (an `int`, so below
`2 ^ 63`) makes `CalculateHash` of the candidate with nonce `n` begin with `d` characters
`0`, then `MineBlock` terminates, after `m + 1` hashes, where `m ≤ n` is the final `Nonce` of
the block; the hash returned is `CalculateHash` of the candidate with nonce `m` and begins
with `d` characters `0`; and no nonce below `m` meets the target, so `m` is the least. -/
theorem MineBlock_least (L : Lib) (bc : Blockchain) (block : Block) (n : Nat)
    (hd : 0 ≤ bc.Difficulty) (h0 : block.Nonce = 0) (hn : (n : Int) < 2 ^ 63)
    (hit : List.replicate bc.Difficulty.toNat 48 <+:
      CalculateHash L { block with Nonce := (n : Int) }) :
    ∃ (m : Nat) (hash : Bytes) (block' : Block), m ≤ n ∧
      (∀ fuel, m < fuel → bc.MineBlock L fuel block = .ok (hash, block')) ∧
      block' = { block with Nonce := (m : Int) } ∧
      hash = CalculateHash L { block with Nonce := (m : Int) } ∧
      List.replicate bc.Difficulty.toNat 48 <+: hash ∧
      ∀ j : Nat, j < m →
        ¬ List.replicate bc.Difficulty.toNat 48 <+:
          CalculateHash L { block with Nonce := (j : Int) } := by
  have hna : ∀ k : Nat, k ≤ n → nonceAfter block.Nonce k = (k : Int) := by
    intro k hk
    rw [h0, nonceAfter_eq k 0 (le_refl 0) (by omega)]
    simp
  have hit' : stringsHasPrefix (CalculateHash L { block with Nonce := nonceAfter block.Nonce n })
      (List.replicate bc.Difficulty.toNat 48) = true := by
    rw [hna n (le_refl n)]
    exact (stringsHasPrefix_iff _ _).mpr hit
  obtain ⟨⟨hash, block'⟩, hr⟩ := mineLoop_hit L _ n block (n + 1) (by omega) hit'
  obtain ⟨m, hm, hb, hh, ht, hmin⟩ := mineLoop_ok L _ (n + 1) _ _ _ hr
  have hmn : m ≤ n := by omega
  rw [hna m hmn] at hb
  refine ⟨m, hash, block', hmn, ?_, hb, by rw [hh, hb], (stringsHasPrefix_iff _ _).mp ht, ?_⟩
  · intro fuel hf
    have hitm : stringsHasPrefix
        (CalculateHash L { block with Nonce := nonceAfter block.Nonce m })
        (List.replicate bc.Difficulty.toNat 48) = true := by
      rw [hna m hmn, ← hb, ← hh]
      exact ht
    obtain ⟨r, hr'⟩ := mineLoop_hit L _ m block (m + 1) (by omega) hitm
    have e1 := mineLoop_mono L _ (m + 1) block r (n - m) hr'
    rw [show m + 1 + (n - m) = n + 1 by omega, hr] at e1
    have e2 := mineLoop_mono L _ (m + 1) block r (fuel - (m + 1)) hr'
    rw [show m + 1 + (fuel - (m + 1)) = fuel by omega] at e2
    rw [MineBlock_eq L bc fuel block hd, e2]
    exact e1.symm
  · intro j hj hpre
    have := hmin j hj
    rw [hna j (by omega), (stringsHasPrefix_iff _ _).mpr hpre] at this
    cases this

/-- Witness of C15: at difficulty 1 the candidate `candidate1` is hit at nonce 4, and the
search from 0 returns that nonce: none of 0, 1, 2, 3 gives a hash that begins with `0`. -/
theorem MineBlock_least_witness :
    candidate1.Nonce = 0 ∧ ((4 : Nat) : Int) < 2 ^ 63 ∧
    ∀ L : Lib,
      List.replicate 1 48 <+: CalculateHash L { candidate1 with Nonce := ((4 : Nat) : Int) } ∧
      ∃ (m : Nat) (hash : Bytes) (block' : Block), m ≤ 4 ∧
        (∀ fuel, m < fuel →
          Blockchain.MineBlock L { Blocks := [genesis0], Difficulty := 1 } fuel candidate1
            = .ok (hash, block')) ∧
        block' = { candidate1 with Nonce := (m : Int) } ∧
        hash = CalculateHash L { candidate1 with Nonce := (m : Int) } ∧
        List.replicate 1 48 <+: hash ∧
        ∀ j : Nat, j < m →
          ¬ List.replicate 1 48 <+: CalculateHash L { candidate1 with Nonce := (j : Int) } := by
  refine ⟨rfl, by norm_num, fun L => ?_⟩
  have hm := MineBlock_candidate1 L
  rw [MineBlock_eq L _ 5 candidate1 (by decide)] at hm
  obtain ⟨k, _, _, hh, ht, _⟩ := mineLoop_ok L _ 5 _ _ _ hm
  have hit : List.replicate 1 48 <+:
      CalculateHash L { candidate1 with Nonce := ((4 : Nat) : Int) } := by
    have := (stringsHasPrefix_iff _ _).mp ht
    rw [hh] at this
    exact this
  exact ⟨hit, MineBlock_least L { Blocks := [genesis0], Difficulty := 1 } candidate1 4
    (by decide) rfl (by norm_num) hit⟩

/-! ## Validation and the proof-of-work target -/

theorem isChainValidLoop_difficulty (L : Lib) (bc : Blockchain) (d : Int) (fuel : Nat) :
    ∀ i, Blockchain.isChainValidLoop L { bc with Difficulty := d } fuel i
      = bc.isChainValidLoop L fuel i := by
  induction fuel with
  | zero => intro i; rfl
  | succ n ih =>
      intro i
      unfold Blockchain.isChainValidLoop
      simp only [ih]
      rfl

/-- C16. Validation does not check the proof-of-work target. `ValidateBlock`, `AddBlock` and
`IsChainValid` do the same on a ledger whatever its `Difficulty`; and on `ledger0`, of
`Difficulty` 4, the block `unmined1`, whose `Hash` begins with `2` and not with `0000`,
whose `PrevHash` is the hash of the tip and whose `Hash` is its digest, is appended by
`AddBlock`, and `IsChainValid()` is true before and after. -/
theorem validation_ignores_target (L : Lib) :
    (∀ (bc : Blockchain) (d : Int) (b p : Block),
      Blockchain.ValidateBlock L { bc with Difficulty := d } b p = bc.ValidateBlock L b p) ∧
    (∀ (bc : Blockchain) (d : Int) (b : Block),
      Blockchain.AddBlock L { bc with Difficulty := d } b =
        match bc.AddBlock L b with
        | .ok bc' => .ok { bc' with Difficulty := d }
        | .error e => .error e) ∧
    (∀ (bc : Blockchain) (d : Int),
      Blockchain.IsChainValid L { bc with Difficulty := d } = bc.IsChainValid L) ∧
    (ledger0.Difficulty = 4 ∧ ledger0.Blocks.getLast? = some genesis0 ∧
      stringsHasPrefix unmined1.Hash (str "0000") = false ∧
      stringsHasPrefix unmined1.Hash (str "0") = false ∧
      unmined1.PrevHash = genesis0.Hash ∧ unmined1.Hash = CalculateHash L unmined1 ∧
      ledger0.IsChainValid L = true ∧
      ledger0.AddBlock L unmined1 = .ok { Blocks := [genesis0, unmined1], Difficulty := 4 } ∧
      Blockchain.IsChainValid L { Blocks := [genesis0, unmined1], Difficulty := 4 } = true) := by
  have hv : Blockchain.ValidateBlock L ledger0 unmined1 genesis0 = true := by
    rw [ValidateBlock_eq_true, CalculateHash_unmined1]
    exact ⟨rfl, rfl⟩
  refine ⟨fun _ _ _ _ => rfl, ?_, ?_, rfl, rfl, by decide, by decide, rfl,
    (CalculateHash_unmined1 L).symm, rfl, ?_, ?_⟩
  · intro bc d b
    unfold Blockchain.AddBlock
    simp only
    cases bc.Blocks[bc.Blocks.length - 1]? with
    | none => rfl
    | some tip =>
        simp only
        rw [show Blockchain.ValidateBlock L { Blocks := bc.Blocks, Difficulty := d } b tip
          = bc.ValidateBlock L b tip from rfl]
        cases bc.ValidateBlock L b tip <;> rfl
  · intro bc d
    exact isChainValidLoop_difficulty L bc d _ 1
  · rw [AddBlock_eq L ledger0 unmined1 genesis0 rfl, hv]
    rfl
  · rw [IsChainValid_two]
    exact hv

/-! ## The `Index` of a block and its position -/

set_option maxRecDepth 100000 in
theorem CalculateHash_offIndex1 (L : Lib) : CalculateHash L offIndex1 = offIndex1.Hash :=
  (CalculateHash_lib L demoLib offIndex1 rfl).trans (by decide)

theorem addBlocks_cons (L : Lib) (bc : Blockchain) (b : Block) (rest : List Block) :
    addBlocks L bc (b :: rest) =
      match bc.AddBlock L b with
      | .error e => .error e
      | .ok bc => addBlocks L bc rest := rfl

/-- C17, what fails. From `NewBlockchain()` at `now0`, `AddBlock(offIndex1)` appends
`offIndex1`: the block at position 1 of the ledger has `Index` 7. -/
theorem Index_not_position :
    offIndex1.Index = 7 ∧
    ([genesis0, offIndex1] : List Block)[1]? = some offIndex1 ∧
    ∀ L : Lib, addBlocks L (NewBlockchain L now0) [offIndex1]
      = .ok { Blocks := [genesis0, offIndex1], Difficulty := 4 } := by
  refine ⟨rfl, rfl, fun L => ?_⟩
  have hv : Blockchain.ValidateBlock L ledger0 offIndex1 genesis0 = true := by
    rw [ValidateBlock_eq_true, CalculateHash_offIndex1]
    exact ⟨rfl, rfl⟩
  rw [NewBlockchain_now0, addBlocks_cons, AddBlock_eq L ledger0 offIndex1 genesis0 rfl, hv]
  rfl

theorem mineAndAdd_ok (L : Lib) (bc bc' : Blockchain) (fuel : Nat) (now : Bytes)
    (transactions : List Transaction) (h : mineAndAdd L bc fuel now transactions = .ok bc') :
    ∃ tip b, bc.Blocks.getLast? = some tip ∧
      bc.NewBlock L fuel now transactions tip.Hash = .ok b ∧
      bc' = { bc with Blocks := bc.Blocks ++ [b] } := by
  unfold mineAndAdd at h
  rw [tip_eq_getLast?] at h
  cases ht : bc.Blocks.getLast? with
  | none => rw [ht] at h; cases h
  | some tip =>
      rw [ht] at h
      simp only at h
      cases hb : bc.NewBlock L fuel now transactions tip.Hash with
      | error e => rw [hb] at h; cases h
      | ok b =>
          rw [hb] at h
          simp only at h
          obtain ⟨_, _, _, _, hp, hh, _⟩ := NewBlock_ok L bc fuel now transactions tip.Hash b hb
          have hv : bc.ValidateBlock L b tip = true :=
            (ValidateBlock_eq_true L bc b tip).mpr ⟨hp, hh⟩
          rw [AddBlock_eq L bc b tip ht, hv] at h
          simp only [if_true, Except.ok.injEq] at h
          exact ⟨tip, b, rfl, hb, h.symm⟩

theorem mineAndAdd_of (L : Lib) (bc : Blockchain) (fuel : Nat) (now : Bytes)
    (transactions : List Transaction) (tip b : Block) (ht : bc.Blocks.getLast? = some tip)
    (hb : bc.NewBlock L fuel now transactions tip.Hash = .ok b) :
    mineAndAdd L bc fuel now transactions = .ok { bc with Blocks := bc.Blocks ++ [b] } := by
  obtain ⟨_, _, _, _, hp, hh, _⟩ := NewBlock_ok L bc fuel now transactions tip.Hash b hb
  have hv : bc.ValidateBlock L b tip = true := (ValidateBlock_eq_true L bc b tip).mpr ⟨hp, hh⟩
  unfold mineAndAdd
  rw [tip_eq_getLast?, ht]
  simp only
  rw [hb]
  simp only
  rw [AddBlock_eq L bc b tip ht, hv]
  rfl

theorem mineAndAddAll_cons (L : Lib) (bc : Blockchain) (fuel : Nat) (now : Bytes)
    (transactions : List Transaction) (rest : List (Nat × Bytes × List Transaction)) :
    mineAndAddAll L bc ((fuel, now, transactions) :: rest) =
      match mineAndAdd L bc fuel now transactions with
      | .error e => .error e
      | .ok bc => mineAndAddAll L bc rest := rfl

theorem mineAndAdd_keeps_Index (L : Lib) (bc bc' : Blockchain) (fuel : Nat) (now : Bytes)
    (transactions : List Transaction)
    (hinv : ∀ (i : Nat) (b : Block), bc.Blocks[i]? = some b → b.Index = (i : Int))
    (h : mineAndAdd L bc fuel now transactions = .ok bc') :
    ∀ (i : Nat) (b : Block), bc'.Blocks[i]? = some b → b.Index = (i : Int) := by
  obtain ⟨tip, blk, _, hb, rfl⟩ := mineAndAdd_ok L bc bc' fuel now transactions h
  obtain ⟨_, hidx, _⟩ := NewBlock_ok L bc fuel now transactions tip.Hash blk hb
  intro i b hi
  simp only at hi
  rcases Nat.lt_trichotomy i bc.Blocks.length with hlt | heq | hgt
  · rw [List.getElem?_append_left hlt] at hi
    exact hinv i b hi
  · rw [List.getElem?_append_right (by omega)] at hi
    have : i - bc.Blocks.length = 0 := by omega
    rw [this] at hi
    simp only [List.getElem?_cons_zero, Option.some.injEq] at hi
    rw [← hi, hidx, heq]
  · have := (List.getElem?_eq_some.mp hi).1
    simp at this
    omega

theorem mineAndAddAll_keeps_Index (L : Lib) (steps : List (Nat × Bytes × List Transaction)) :
    ∀ bc bc' : Blockchain, (∀ (i : Nat) (b : Block), bc.Blocks[i]? = some b → b.Index = (i : Int)) →
      mineAndAddAll L bc steps = .ok bc' →
      ∀ (i : Nat) (b : Block), bc'.Blocks[i]? = some b → b.Index = (i : Int) := by
  induction steps with
  | nil =>
      intro bc bc' hinv h
      simp only [mineAndAddAll, Except.ok.injEq] at h
      rw [← h]
      exact hinv
  | cons s rest ih =>
      intro bc bc' hinv h
      obtain ⟨fuel, now, txs⟩ := s
      simp only [mineAndAddAll] at h
      cases h1 : mineAndAdd L bc fuel now txs with
      | error e => rw [h1] at h; cases h
      | ok bc1 =>
          rw [h1] at h
          exact ih bc1 bc' (mineAndAdd_keeps_Index L bc bc1 fuel now txs hinv h1) h

/-- C17, amended. `AddBlock` does not look at `Index`; what holds is this. In a ledger where
every block has its position as `Index`, after any sequence of steps `NewBlock` on the hash
of the last block then `AddBlock` of the block returned (what `main` does) every block
still has its position as `Index`; the ledger `NewBlockchain()` returns is such a ledger; and
in every ledger obtained from `NewBlockchain()` by `AddBlock` calls with arbitrary blocks
the block at position 0 is the genesis block, with `Index` 0. -/
theorem Index_is_position (L : Lib) (bc bc' : Blockchain)
    (steps : List (Nat × Bytes × List Transaction))
    (hinv : ∀ (i : Nat) (b : Block), bc.Blocks[i]? = some b → b.Index = (i : Int))
    (h : mineAndAddAll L bc steps = .ok bc') :
    (∀ (i : Nat) (b : Block), bc'.Blocks[i]? = some b → b.Index = (i : Int)) ∧
    (∀ (now : Bytes) (i : Nat) (b : Block),
      (NewBlockchain L now).Blocks[i]? = some b → b.Index = (i : Int)) ∧
    (∀ (now : Bytes) (blocks : List Block), ∃ bc2 g,
      addBlocks L (NewBlockchain L now) blocks = .ok bc2 ∧ bc2.Blocks[0]? = some g ∧
        (NewBlockchain L now).Blocks = [g] ∧ g.Index = 0) := by
  refine ⟨mineAndAddAll_keeps_Index L steps bc bc' hinv h, ?_, ?_⟩
  · intro now i b hb
    cases i with
    | zero =>
        simp only [NewBlockchain, List.getElem?_cons_zero, Option.some.injEq] at hb
        rw [← hb]
        rfl
    | succ i => simp [NewBlockchain] at hb
  · intro now blocks
    obtain ⟨hne, hh, hl⟩ := NewBlockchain_keeps L now
    obtain ⟨bc2, h2, _, _, hp, _, _⟩ :=
      addBlocks_keeps L blocks (NewBlockchain L now) hne hh hl
    obtain ⟨t, ht⟩ := hp
    refine ⟨bc2, _, h2, ?_, rfl, rfl⟩
    rw [← ht, List.getElem?_append_left (by simp [NewBlockchain])]
    rfl

/-- Witness of C17, amended: the ledger of difficulty 1 that holds `genesis0`, and the step
that mines `mined1` and appends it. -/
theorem Index_is_position_witness :
    genesis0.Index = 0 ∧ mined1.Index = 1 ∧
    ∀ L : Lib,
      mineAndAddAll L { Blocks := [genesis0], Difficulty := 1 } [(5, now1, [])]
        = .ok { Blocks := [genesis0, mined1], Difficulty := 1 } ∧
      ∀ (i : Nat) (b : Block), ([genesis0, mined1] : List Block)[i]? = some b →
        b.Index = (i : Int) := by
  refine ⟨rfl, rfl, fun L => ?_⟩
  have hstep : mineAndAddAll L { Blocks := [genesis0], Difficulty := 1 } [(5, now1, [])]
      = .ok { Blocks := [genesis0, mined1], Difficulty := 1 } := by
    rw [mineAndAddAll_cons,
      mineAndAdd_of L { Blocks := [genesis0], Difficulty := 1 } 5 now1 [] genesis0 mined1 rfl
        (NewBlock_mined1 L)]
    rfl
  have hinv : ∀ (i : Nat) (b : Block),
      ({ Blocks := [genesis0], Difficulty := 1 } : Blockchain).Blocks[i]? = some b →
      b.Index = (i : Int) := by
    intro i b hb
    cases i with
    | zero =>
        simp only [List.getElem?_cons_zero, Option.some.injEq] at hb
        rw [← hb]
        rfl
    | succ i => simp at hb
  exact ⟨hstep, (Index_is_position L _ _ [(5, now1, [])] hinv hstep).1⟩

/-! ## The last block is always there -/

theorem mineLoop_error (L : Lib) (target : Bytes) (fuel : Nat) :
    ∀ (b : Block) (e : Fault), mineLoop L target fuel b = .error e → e = .outOfFuel := by
  induction fuel with
  | zero =>
      intro b e h
      simp only [mineLoop, Except.error.injEq] at h
      exact h.symm
  | succ n ih =>
      intro b e h
      unfold mineLoop at h
      by_cases hp : stringsHasPrefix (CalculateHash L b) target = true
      · simp [hp] at h
      · have hp' : stringsHasPrefix (CalculateHash L b) target = false := by simpa using hp
        simp only [hp', Bool.false_eq_true, if_false] at h
        exact ih _ e h

theorem NewBlock_error (L : Lib) (bc : Blockchain) (fuel : Nat) (now : Bytes)
    (transactions : List Transaction) (prevHash : Bytes) (e : Fault) (hd : 0 ≤ bc.Difficulty)
    (h : bc.NewBlock L fuel now transactions prevHash = .error e) : e = .outOfFuel := by
  unfold Blockchain.NewBlock at h
  simp only at h
  cases hm : bc.MineBlock L fuel
      { Index := (bc.Blocks.length : Int), Timestamp := now, Transactions := transactions,
        PrevHash := prevHash, Hash := [], Nonce := 0 } with
  | ok r =>
      rw [hm] at h
      cases h
  | error e' =>
      rw [hm] at h
      simp only [Except.error.injEq] at h
      rw [MineBlock_eq L bc fuel _ hd] at hm
      rw [← h]
      exact mineLoop_error L _ fuel _ e' hm

theorem AddBlock_panic_iff (L : Lib) (bc : Blockchain) (b : Block) :
    bc.AddBlock L b = .error .panic ↔ bc.Blocks = [] := by
  constructor
  · intro h
    by_contra hne
    obtain ⟨tip, htip⟩ : ∃ tip, bc.Blocks.getLast? = some tip := by
      cases hb : bc.Blocks.getLast? with
      | none => exact absurd (List.getLast?_eq_none_iff.mp hb) hne
      | some t => exact ⟨t, rfl⟩
    rw [AddBlock_eq L bc b tip htip] at h
    by_cases hv : bc.ValidateBlock L b tip = true
    · simp [hv] at h
    · simp [hv] at h
  · intro h
    unfold Blockchain.AddBlock
    rw [h]
    rfl

theorem AddBlock_nonempty (L : Lib) (bc : Blockchain) (b : Block) (hne : bc.Blocks ≠ []) :
    ∃ bc', bc.AddBlock L b = .ok bc' ∧ bc'.Blocks ≠ [] ∧ bc'.Difficulty = bc.Difficulty ∧
      bc.Blocks <+: bc'.Blocks := by
  obtain ⟨tip, htip⟩ : ∃ tip, bc.Blocks.getLast? = some tip := by
    cases hb : bc.Blocks.getLast? with
    | none => exact absurd (List.getLast?_eq_none_iff.mp hb) hne
    | some t => exact ⟨t, rfl⟩
  rw [AddBlock_eq L bc b tip htip]
  by_cases hv : bc.ValidateBlock L b tip = true
  · exact ⟨{ bc with Blocks := bc.Blocks ++ [b] }, by simp [hv], by simp, rfl,
      List.prefix_append _ _⟩
  · have hf : bc.ValidateBlock L b tip = false := by simpa using hv
    exact ⟨bc, by simp [hf], hne, rfl, List.prefix_refl _⟩

/-- A sequence of calls on a ledger that has a block and a `Difficulty` that is not negative
either stops in a `NewBlock` that has not returned within its fuel, or leaves a ledger that
begins with the old block sequence. It never panics. -/
theorem runCalls_keeps (L : Lib) (calls : List Call) :
    ∀ bc : Blockchain, bc.Blocks ≠ [] → 0 ≤ bc.Difficulty →
      runCalls L bc calls = .error .outOfFuel ∨
      ∃ bc', runCalls L bc calls = .ok bc' ∧ bc'.Blocks ≠ [] ∧
        bc'.Difficulty = bc.Difficulty ∧ bc.Blocks <+: bc'.Blocks := by
  induction calls with
  | nil =>
      intro bc hne _
      exact Or.inr ⟨bc, rfl, hne, rfl, List.prefix_refl _⟩
  | cons c rest ih =>
      intro bc hne hd
      cases c with
      | addBlock b =>
          obtain ⟨bc1, h1, hne1, hd1, hp1⟩ := AddBlock_nonempty L bc b hne
          have e : runCalls L bc (Call.addBlock b :: rest) =
              match bc.AddBlock L b with
              | .error e => .error e
              | .ok bc => runCalls L bc rest := rfl
          rw [e, h1]
          simp only
          rcases ih bc1 hne1 (by rw [hd1]; exact hd) with h | ⟨bc2, h2, hne2, hd2, hp2⟩
          · exact Or.inl h
          · exact Or.inr ⟨bc2, h2, hne2, hd2.trans hd1, hp1.trans hp2⟩
      | newBlock fuel now txs p =>
          have e : runCalls L bc (Call.newBlock fuel now txs p :: rest) =
              match bc.NewBlock L fuel now txs p with
              | .error e => .error e
              | .ok _ => runCalls L bc rest := rfl
          rw [e]
          cases hb : bc.NewBlock L fuel now txs p with
          | error f =>
              left
              rw [NewBlock_error L bc fuel now txs p f hd hb]
          | ok blk => exact ih bc hne hd

/-- C18. The access `Blocks[len(Blocks)-1]` of `AddBlock` is in range on every ledger built
through `NewBlockchain()`. A finite sequence of `AddBlock` and `NewBlock` calls from
`NewBlockchain()` never panics: it stops in a `NewBlock` that does not return, or it leaves
a ledger with at least one block whose block sequence begins with the genesis block of
`NewBlockchain()`, on which every further `AddBlock` returns and every further sequence of
calls that returns leaves a block sequence that begins with the present one, so is at
least as long. `AddBlock` panics exactly on a ledger with no block. -/
theorem tip_in_range (L : Lib) (now : Bytes) (calls : List Call) :
    (runCalls L (NewBlockchain L now) calls = .error .outOfFuel ∨
      ∃ bc, runCalls L (NewBlockchain L now) calls = .ok bc ∧ 1 ≤ bc.Blocks.length ∧
        bc.Blocks[0]? = (NewBlockchain L now).Blocks[0]? ∧
        (NewBlockchain L now).Blocks <+: bc.Blocks ∧
        (∀ b, ∃ bc', bc.AddBlock L b = .ok bc' ∧ bc.Blocks.length ≤ bc'.Blocks.length) ∧
        (∀ more bc2, runCalls L bc more = .ok bc2 →
          bc.Blocks <+: bc2.Blocks ∧ bc.Blocks.length ≤ bc2.Blocks.length)) ∧
    (∀ (bc : Blockchain) (b : Block), bc.AddBlock L b = .error .panic ↔ bc.Blocks = []) := by
  refine ⟨?_, fun bc b => AddBlock_panic_iff L bc b⟩
  rcases runCalls_keeps L calls (NewBlockchain L now) (by simp [NewBlockchain])
    (by simp [NewBlockchain]) with h | ⟨bc, h, hne, hd, hp⟩
  · exact Or.inl h
  · right
    refine ⟨bc, h, List.length_pos.mpr hne, ?_, hp, ?_, ?_⟩
    · obtain ⟨t, ht⟩ := hp
      rw [← ht, List.getElem?_append_left (by simp [NewBlockchain])]
    · intro b
      obtain ⟨bc', h', _, _, hp'⟩ := AddBlock_nonempty L bc b hne
      exact ⟨bc', h', hp'.length_le⟩
    · intro more bc2 h2
      rcases runCalls_keeps L more bc hne (by rw [hd]; simp [NewBlockchain]) with
        h3 | ⟨bc3, h3, _, _, hp3⟩
      · rw [h3] at h2
        cases h2
      · rw [h3] at h2
        simp only [Except.ok.injEq] at h2
        rw [← h2]
        exact ⟨hp3, hp3.length_le⟩

/-! ## A transaction changed after signing -/

theorem ValidateTransaction_eq (L : Lib) (tx : Transaction) (pub : L.PublicKey) :
    ValidateTransaction L tx pub =
      (L.VerifyPKCS1v15 pub (SHA256.Sum256 (tx.Sender ++ tx.Receiver ++ L.fmtFloatF tx.Amount))
        tx.Signature).isNone := rfl

theorem ValidateTransaction_same_text (L : Lib) (rand sender receiver : Bytes)
    (amount : Float64) (priv : L.PrivateKey) (pub : L.PublicKey) (tx tx' : Transaction)
    (hm : Matched L priv pub)
    (h : NewTransaction L rand sender receiver amount priv = .ok tx)
    (hsig : tx'.Signature = tx.Signature)
    (ht : tx'.Sender ++ tx'.Receiver ++ L.fmtFloatF tx'.Amount
      = sender ++ receiver ++ L.fmtFloatF amount) :
    ValidateTransaction L tx' pub = true := by
  obtain ⟨_, _, _, h4⟩ := NewTransaction_ok L rand sender receiver amount priv tx h
  rw [ValidateTransaction_eq, ht, hsig, hm rand _ _ h4]
  rfl

set_option exponentiation.threshold 4096 in
set_option maxRecDepth 100000 in
theorem NewTransaction_txShiftA :
    NewTransaction demoLib [] (str "ab") (str "c") ⟨0x4059000000000000⟩ demoPriv
      = .ok txShiftA := by
  rfl

theorem text_ab_c : str "a" ++ str "bc" = str "ab" ++ str "c" := by decide

theorem text_txShiftB :
    txShiftB.Sender ++ txShiftB.Receiver ++ demoLib.fmtFloatF txShiftB.Amount
      = str "ab" ++ str "c" ++ demoLib.fmtFloatF ⟨0x4059000000000000⟩ := by
  show str "a" ++ str "bc" ++ _ = str "ab" ++ str "c" ++ _
  rw [text_ab_c]
  rfl

/-- C11, what fails. The transaction signed for sender `ab` and receiver `c`, with sender
and receiver changed to `a` and `bc` and the signature kept, is validated by the matching
public key: in `demoLib`, where it is `txShiftB`, and with any library and any matched key
pair for which the signing returns. -/
theorem tampered_transaction_accepted :
    txShiftB ≠ txShiftA ∧ txShiftB.Sender ≠ txShiftA.Sender ∧
    txShiftB.Receiver ≠ txShiftA.Receiver ∧ txShiftB.Signature = txShiftA.Signature ∧
    (Matched demoLib demoPriv demoPriv.PublicKey ∧
      NewTransaction demoLib [] (str "ab") (str "c") ⟨0x4059000000000000⟩ demoPriv
        = .ok txShiftA ∧
      ValidateTransaction demoLib txShiftB demoPriv.PublicKey = true) ∧
    ∀ (L : Lib) (rand : Bytes) (amount : Float64) (priv : L.PrivateKey) (pub : L.PublicKey)
      (tx : Transaction), Matched L priv pub →
      NewTransaction L rand (str "ab") (str "c") amount priv = .ok tx →
      ValidateTransaction L { tx with Sender := str "a", Receiver := str "bc" } pub = true := by
  have hm := demoLib_matched demoPriv (by decide) (by decide)
  refine ⟨by decide, by decide, by decide, rfl, ⟨hm, NewTransaction_txShiftA, ?_⟩, ?_⟩
  · exact ValidateTransaction_same_text demoLib [] (str "ab") (str "c") ⟨0x4059000000000000⟩
      demoPriv demoPriv.PublicKey txShiftA txShiftB hm NewTransaction_txShiftA rfl
      text_txShiftB
  · intro L rand amount priv pub tx hm' h
    obtain ⟨_, _, h3, _⟩ := NewTransaction_ok L rand (str "ab") (str "c") amount priv tx h
    exact ValidateTransaction_same_text L rand (str "ab") (str "c") amount priv pub tx _ hm' h
      rfl (by
        show str "a" ++ str "bc" ++ L.fmtFloatF tx.Amount = _
        rw [text_ab_c, h3])

/-- C11, amended. For a transaction `tx` that `NewTransaction` signed with `priv`, the
matching public key `pub`, and a transaction `tx'` that keeps the signature of `tx`:
`ValidateTransaction(tx', pub)` is a boolean (it never fails), the verdict of
`VerifyPKCS1v15` on the signature and the SHA-256 digest of
`sender' ++ receiver' ++ format(amount')`. It is true whenever that text is the text that
was signed. It is false whenever the digest is not the one that was signed and the library
accepts the signature for no other digest. A change of the sender alone, or of the receiver
alone, changes the text. -/
theorem ValidateTransaction_tampered (L : Lib) (rand sender receiver : Bytes)
    (amount : Float64) (priv : L.PrivateKey) (pub : L.PublicKey) (tx tx' : Transaction)
    (hm : Matched L priv pub)
    (h : NewTransaction L rand sender receiver amount priv = .ok tx)
    (hsig : tx'.Signature = tx.Signature) :
    (ValidateTransaction L tx' pub =
      (L.VerifyPKCS1v15 pub
        (SHA256.Sum256 (tx'.Sender ++ tx'.Receiver ++ L.fmtFloatF tx'.Amount))
        tx.Signature).isNone) ∧
    (tx'.Sender ++ tx'.Receiver ++ L.fmtFloatF tx'.Amount
        = sender ++ receiver ++ L.fmtFloatF amount →
      ValidateTransaction L tx' pub = true) ∧
    ((∀ d, L.VerifyPKCS1v15 pub d tx.Signature = none →
        d = SHA256.Sum256 (sender ++ receiver ++ L.fmtFloatF amount)) →
      SHA256.Sum256 (tx'.Sender ++ tx'.Receiver ++ L.fmtFloatF tx'.Amount)
        ≠ SHA256.Sum256 (sender ++ receiver ++ L.fmtFloatF amount) →
      ValidateTransaction L tx' pub = false) ∧
    (tx'.Sender ≠ sender → tx'.Receiver = receiver → tx'.Amount = amount →
      tx'.Sender ++ tx'.Receiver ++ L.fmtFloatF tx'.Amount
        ≠ sender ++ receiver ++ L.fmtFloatF amount) ∧
    (tx'.Sender = sender → tx'.Receiver ≠ receiver → tx'.Amount = amount →
      tx'.Sender ++ tx'.Receiver ++ L.fmtFloatF tx'.Amount
        ≠ sender ++ receiver ++ L.fmtFloatF amount) := by
  have hv : ValidateTransaction L tx' pub =
      (L.VerifyPKCS1v15 pub
        (SHA256.Sum256 (tx'.Sender ++ tx'.Receiver ++ L.fmtFloatF tx'.Amount))
        tx.Signature).isNone := by
    rw [ValidateTransaction_eq, hsig]
  refine ⟨hv, ?_, ?_, ?_, ?_⟩
  · exact ValidateTransaction_same_text L rand sender receiver amount priv pub tx tx' hm h hsig
  · intro honly hne
    rw [hv]
    cases hr : L.VerifyPKCS1v15 pub
        (SHA256.Sum256 (tx'.Sender ++ tx'.Receiver ++ L.fmtFloatF tx'.Amount)) tx.Signature with
    | none => exact absurd (honly _ hr) hne
    | some e => rfl
  · intro hs hr ha heq
    rw [hr, ha, List.append_assoc, List.append_assoc] at heq
    exact hs (List.append_cancel_right heq)
  · intro hs hr ha heq
    rw [hs, ha, List.append_assoc, List.append_assoc] at heq
    exact hr (List.append_cancel_right (List.append_cancel_left heq))

/-- Witness of C11, amended: in `demoLib`, `txShiftA` is what `demoPriv` signs for `ab` and
`c`; `txShiftB` keeps its signature and has the same text, and is validated. -/
theorem ValidateTransaction_tampered_witness :
    Matched demoLib demoPriv demoPriv.PublicKey ∧
    NewTransaction demoLib [] (str "ab") (str "c") ⟨0x4059000000000000⟩ demoPriv
      = .ok txShiftA ∧
    txShiftB.Signature = txShiftA.Signature ∧
    ValidateTransaction demoLib txShiftB demoPriv.PublicKey = true :=
  ⟨demoLib_matched demoPriv (by decide) (by decide), NewTransaction_txShiftA, rfl,
    (ValidateTransaction_tampered demoLib [] (str "ab") (str "c") ⟨0x4059000000000000⟩ demoPriv
      demoPriv.PublicKey txShiftA txShiftB (demoLib_matched demoPriv (by decide) (by decide))
      NewTransaction_txShiftA rfl).2.1 text_txShiftB⟩


end GoChain
